import Mathlib

/-!
Verification of the schedule-reconciliation scripts.

We shallowly embed the calendar-facing logic of the repository's scripts:

* `update_deep_work_jan_2025.py` — upsert-mode reconciliation
  (`find_event_by_summary_in_range`, `update_event_description`,
  `create_event`, `main`);
* `update_marketing_q1.py` — replace-mode reconciliation
  (`delete_existing_marketing_events`, `create_event`, `main`);
* `update_deep_work_3week_plan.py` — business-day stepping loop in `main`;
* `add_january_events.py` — `weekday_schedule` and the expansion loop in
  `main`.

Timestamps are modelled as natural numbers counting minutes; a calendar
date is a natural number counting days, with day `0` chosen to be a
Monday, so a date `d` has weekday `d % 7` (`0` = Monday … `6` = Sunday),
mirroring Python's `date.weekday()`.  A datetime on day `d` at `h:mi` is
the minute count `d * 1440 + h * 60 + mi`.

The remote Google Calendar is modelled as a state holding a list of
events plus a fresh-id counter.  `events().list` with `timeMin`/`timeMax`
returns events overlapping the window (end strictly after `timeMin`,
start strictly before `timeMax`, Google's documented semantics), narrowed
by the free-text `q` parameter, which we model as a case-insensitive
substring match against the event's summary or description (a superset
of exact title matches, as the scripts assume), ordered by start time.
-/

/-- A remote calendar event as the service returns it: opaque id, summary
(title), start and end minutes, description, plus `extra` standing for all
further service-side fields (attendees etc.) that the scripts do not own. -/
structure RemoteEvent where
  id : Nat
  summary : String
  start : Nat
  end_ : Nat
  description : String
  extra : String
  deriving Repr, DecidableEq

/-- The remote calendar: current events and the next id the service will
assign on insert. -/
structure CalState where
  events : List RemoteEvent
  nextId : Nat
  deriving Repr, DecidableEq

/-- Case-insensitive prefix test on character lists. -/
def startsWithChars : List Char → List Char → Bool
  | [], _ => true
  | _ :: _, [] => false
  | p :: ps, c :: cs => p = c && startsWithChars ps cs

/-- Substring test on character lists (`pat` occurs somewhere in `hay`). -/
def charsOccur : List Char → List Char → Bool
  | pat, [] => pat.isEmpty
  | pat, c :: cs => startsWithChars pat (c :: cs) || charsOccur pat cs

/-- A string lowercased to its character list (`str.lower()`). -/
def lowChars (s : String) : List Char := s.toList.map Char.toLower

/-- Case-insensitive substring test on strings. -/
def strContainsCI (hay pat : String) : Bool :=
  charsOccur (lowChars pat) (lowChars hay)

/-- Case-insensitive string equality, the scripts' `a.lower() == b.lower()`. -/
def lowEq (a b : String) : Bool := lowChars a = lowChars b

/-- Google list-window semantics: an event is returned for
`timeMin = tmin`, `timeMax = tmax` iff its end is after `tmin` and its
start before `tmax`. -/
def overlapsWin (e : RemoteEvent) (tmin tmax : Nat) : Bool :=
  decide (e.start < tmax) && decide (tmin < e.end_)

/-- The server-side free-text `q` filter: best-effort case-insensitive
substring match on summary or description. -/
def qMatch (q : String) (e : RemoteEvent) : Bool :=
  strContainsCI e.summary q || strContainsCI e.description q

/-- Stable insertion by start time (earlier-listed events stay first among
equal starts). -/
def insertByStart (e : RemoteEvent) : List RemoteEvent → List RemoteEvent
  | [] => [e]
  | f :: r => if f.start < e.start then f :: insertByStart e r else e :: f :: r

/-- Stable sort by start time, modelling `orderBy='startTime'`. -/
def sortByStart : List RemoteEvent → List RemoteEvent
  | [] => []
  | e :: r => insertByStart e (sortByStart r)

/-- `service.events().list(timeMin, timeMax, q, orderBy='startTime')`. -/
def listEvents (s : CalState) (tmin tmax : Nat) (q : String) : List RemoteEvent :=
  sortByStart (s.events.filter (fun e => overlapsWin e tmin tmax && qMatch q e))

/-- `service.events().insert(...)`: the service assigns a fresh id and
appends the event; `extra` fields start empty on a fresh event. -/
def createEvent (s : CalState) (summary : String) (st en : Nat) (desc : String) :
    RemoteEvent × CalState :=
  let e : RemoteEvent :=
    { id := s.nextId, summary := summary, start := st, end_ := en
      description := desc, extra := "" }
  (e, { events := s.events ++ [e], nextId := s.nextId + 1 })

/-- `service.events().update(eventId, body)`: replaces the stored event
with the supplied body. -/
def updateEvent (s : CalState) (eid : Nat) (body : RemoteEvent) : CalState :=
  { s with events := s.events.map (fun e => if e.id = eid then body else e) }

/-- `service.events().delete(eventId)`. -/
def deleteEvent (s : CalState) (eid : Nat) : CalState :=
  { s with events := s.events.filter (fun e => !(e.id = eid : Bool)) }

/-!  ### The matcher: `find_event_by_summary_in_range`  -/

/-- The client-side loop of `find_event_by_summary_in_range`: first event in
the listed order whose summary equals the target case-insensitively. -/
def firstExactMatch (summary : String) (events : List RemoteEvent) :
    Option RemoteEvent :=
  events.find? (fun e => lowEq e.summary summary)

/-- `find_event_by_summary_in_range(service, summary, start_dt, end_dt)`:
list events in the window with `q=summary`, return the first whose summary
matches exactly (case-insensitively), else `none`. -/
def findEvt (s : CalState) (summary : String) (st en : Nat) : Option RemoteEvent :=
  firstExactMatch summary (listEvents s st en summary)

/-!  ### Upsert-mode reconciliation (`update_deep_work_jan_2025.py`)  -/

/-- One desired time block: title, window, and the description to install. -/
structure Blk where
  summary : String
  bstart : Nat
  bend : Nat
  desc : String
  deriving Repr, DecidableEq

/-- One entry of the script's `SCHEDULE` table: a date plus titles and
descriptions for the two deep-work blocks. -/
structure DayInfo where
  date : Nat
  block1_title : String
  block1_desc : String
  block2_title : String
  block2_desc : String
  deriving Repr, DecidableEq

/-- The block construction inside `main`'s loop: block 1 runs 08:00–10:00,
block 2 runs 10:30–12:30, on the entry's date. -/
def dayBlocks (d : DayInfo) : List Blk :=
  [ { summary := d.block1_title, bstart := d.date * 1440 + 8 * 60
      bend := d.date * 1440 + 10 * 60, desc := d.block1_desc },
    { summary := d.block2_title, bstart := d.date * 1440 + 10 * 60 + 30
      bend := d.date * 1440 + 12 * 60 + 30, desc := d.block2_desc } ]

/-- The flat, ordered list of desired blocks `main` iterates over. -/
def schedBlocks (days : List DayInfo) : List Blk :=
  days.flatMap dayBlocks

/-- A reported action, mirroring the scripts' per-call print statements. -/
inductive Act where
  | created (id : Nat) (summary : String) (start : Nat) (end_ : Nat) (desc : String)
  | updated (id : Nat) (desc : String)
  | deleted (id : Nat)
  deriving Repr, DecidableEq

/-- `update_event_description`: the event body sent to `update` is the found
event with only its `description` field overwritten. -/
def updateBody (e : RemoteEvent) (newDescription : String) : RemoteEvent :=
  { e with description := newDescription }

/-- One iteration of `main`'s per-block logic: find; if found, update the
description, else create. -/
def stepU (s : CalState) (b : Blk) : Act × CalState :=
  match findEvt s b.summary b.bstart b.bend with
  | some e => (Act.updated e.id b.desc, updateEvent s e.id (updateBody e b.desc))
  | none =>
      let (e, s') := createEvent s b.summary b.bstart b.bend b.desc
      (Act.created e.id b.summary b.bstart b.bend b.desc, s')

/-- `main` of `update_deep_work_jan_2025.py`, parameterised by the schedule
table: sequentially upsert every block, collecting the action log. -/
def runU : List Blk → CalState → List Act × CalState
  | [], s => ([], s)
  | b :: bs, s =>
      let (a, s') := stepU s b
      let (as, s'') := runU bs s'
      (a :: as, s'')

/-!  ### Well-formedness and validity predicates  -/

/-- Service invariant: distinct event ids, all below the fresh-id counter. -/
def nodupIds : List RemoteEvent → Bool
  | [] => true
  | e :: r => r.all (fun x => !(x.id = e.id : Bool)) && nodupIds r

/-- A well-formed remote state: the service never hands out duplicate ids
and never reuses an id below its counter. -/
def wfState (s : CalState) : Bool :=
  nodupIds s.events && s.events.all (fun e => decide (e.id < s.nextId))

/-- Two blocks clash when their titles match case-insensitively and their
half-open windows overlap (the spec's "ambiguous match target"). -/
def blkClash (a b : Blk) : Bool :=
  lowEq a.summary b.summary && decide (a.bstart < b.bend) && decide (b.bstart < a.bend)

/-- No later block clashes with an earlier one. -/
def pairwiseNoClash : List Blk → Bool
  | [] => true
  | b :: r => r.all (fun x => !blkClash b x) && pairwiseNoClash r

/-- The spec's DesiredEvent invariant: non-empty title, `start < end`, and
no two same-title blocks with overlapping windows in one run. -/
def validBlocks (bs : List Blk) : Bool :=
  bs.all (fun b => !(b.summary = "" : Bool) && decide (b.bstart < b.bend)) &&
    pairwiseNoClash bs

/-!  ### Replace-mode reconciliation (`update_marketing_q1.py`)  -/

/-- One entry of the script's `WEEKS` table: a Monday anchor date, the
week's focus line and the optional per-day task texts (the Python dict is
consulted with `get(day_name, "No tasks specified.")`). -/
structure Week where
  start_date : Nat
  focus : String
  mon : Option String
  tue : Option String
  wed : Option String
  thu : Option String
  fri : Option String
  deriving Repr, DecidableEq

/-- The fixed summary of every replace-mode event in the script. -/
def mktTitle : String := "Marketing & Outreach"

/-- The description built in `main`'s loop:
`f"**Focus**: {focus}\n\n**{day_name} Tasks**:\n{daily_tasks}"`. -/
def mkMktDesc (focus dayName : String) (tasks : Option String) : String :=
  "**Focus**: " ++ focus ++ "\n\n**" ++ dayName ++ " Tasks**:\n" ++
    tasks.getD "No tasks specified."

/-- One replace-mode slot: the 16:00–18:00 window on one date, plus the
description to install. -/
structure Slot where
  sstart : Nat
  send : Nat
  sdesc : String
  deriving Repr, DecidableEq

/-- `main`'s inner Mon–Fri loop for one week: day `i` is
`start_date + i`, with a 16:00–18:00 window. -/
def weekSlots (w : Week) : List Slot :=
  [ { sstart := (w.start_date + 0) * 1440 + 16 * 60
      send := (w.start_date + 0) * 1440 + 18 * 60
      sdesc := mkMktDesc w.focus "Mon" w.mon },
    { sstart := (w.start_date + 1) * 1440 + 16 * 60
      send := (w.start_date + 1) * 1440 + 18 * 60
      sdesc := mkMktDesc w.focus "Tue" w.tue },
    { sstart := (w.start_date + 2) * 1440 + 16 * 60
      send := (w.start_date + 2) * 1440 + 18 * 60
      sdesc := mkMktDesc w.focus "Wed" w.wed },
    { sstart := (w.start_date + 3) * 1440 + 16 * 60
      send := (w.start_date + 3) * 1440 + 18 * 60
      sdesc := mkMktDesc w.focus "Thu" w.thu },
    { sstart := (w.start_date + 4) * 1440 + 16 * 60
      send := (w.start_date + 4) * 1440 + 18 * 60
      sdesc := mkMktDesc w.focus "Fri" w.fri } ]

/-- The flat slot sequence `main` processes over the whole `WEEKS` table. -/
def schedMkt (weeks : List Week) : List Slot :=
  weeks.flatMap weekSlots

/-- `delete_existing_marketing_events`: list the window with
`q="Marketing & Outreach"`, then delete every listed event whose summary
equals `"marketing & outreach"` after lowercasing. -/
def deleteExisting (s : CalState) (dayStart dayEnd : Nat) : List Act × CalState :=
  let listed := listEvents s dayStart dayEnd mktTitle
  let hits := listed.filter
    (fun e => (lowChars e.summary = "marketing & outreach".toList : Bool))
  (hits.map (fun e => Act.deleted e.id),
   hits.foldl (fun acc e => deleteEvent acc e.id) s)

/-- One iteration of the marketing `main` loop: purge the slot's window,
then create the fresh event. -/
def stepR (s : CalState) (sl : Slot) : List Act × CalState :=
  let (dels, s1) := deleteExisting s sl.sstart sl.send
  let (e, s2) := createEvent s1 mktTitle sl.sstart sl.send sl.sdesc
  (dels ++ [Act.created e.id mktTitle sl.sstart sl.send sl.sdesc], s2)

/-- `main` of `update_marketing_q1.py`, parameterised by the `WEEKS`
table: sequentially replace every slot, collecting the action log. -/
def runR : List Slot → CalState → List Act × CalState
  | [], s => ([], s)
  | sl :: sls, s =>
      let (a, s') := stepR s sl
      let (as, s'') := runR sls s'
      (a ++ as, s'')

/-!  ### Business-day stepping (`update_deep_work_3week_plan.py`)  -/

/-- The `while` loop of the 3-week script's `main`, with an explicit fuel
bound on loop iterations: starting at date `d`, skip Saturdays (`d % 7 =
5`) and Sundays (`d % 7 = 6`), and collect the dates assigned to the
`need` remaining plan items.  The per-day reconciliation body is the
upsert step already modelled by `stepU`. -/
def businessDays (fuel need d : Nat) : List Nat :=
  match fuel with
  | 0 => []
  | fuel + 1 =>
      if need = 0 then []
      else if d % 7 < 5 then d :: businessDays fuel (need - 1) (d + 1)
      else businessDays fuel need (d + 1)

/-- The first weekday at or after `d` (closed form). -/
def firstWD (d : Nat) : Nat :=
  if d % 7 = 5 then d + 2 else if d % 7 = 6 then d + 1 else d

/-- Structural restatement of the stepping loop: the `n`-th business day
from `d` is obtained by jumping to the first weekday and recursing from
the next calendar day. -/
def businessDaysSpec : Nat → Nat → List Nat
  | 0, _ => []
  | n + 1, d => firstWD d :: businessDaysSpec n (firstWD d + 1)

/-!  ### Schedule expansion (`add_january_events.py`)  -/

/-- A desired event produced by the expansion: summary, window,
description. -/
structure EvSpec where
  summary : String
  start : Nat
  end_ : Nat
  description : String
  deriving Repr, DecidableEq

/-- `dt(year, month, day, hour, minute)` on our day-number encoding. -/
def dtMin (day h mi : Nat) : Nat := day * 1440 + h * 60 + mi

/-- The `WEEKDAY_FOCUS` table (Monday = 0 … Sunday = 6). -/
def weekdayFocus : Nat → String
  | 0 => "Focus: Week Agenda & Planning (Monday)"
  | 1 => "Focus: Product/Service Development (Tuesday)"
  | 2 => "Focus: Networking & Marketing (Wednesday)"
  | 3 => "Focus: Admin & Finances (Thursday)"
  | 4 => "Focus: Weekly Review & Wrap-Up (Friday)"
  | 5 => "Focus: Big-Picture Thinking (Saturday)"
  | _ => "Focus: Rest & Reflection (Sunday)"

/-- `weekday_schedule(year, month, day, weekday)`: the per-day template.
Mon–Fri get the 13-block working day, Saturday the lighter 7-block day,
Sunday the 3-block rest day. -/
def weekdaySchedule (day weekday : Nat) : List EvSpec :=
  if weekday ≤ 4 then
    [ { summary := "Morning Routine", start := dtMin day 6 0, end_ := dtMin day 7 0
        description := "Wake up, light exercise, shower, breakfast." },
      { summary := "Planning & Admin", start := dtMin day 7 0, end_ := dtMin day 8 0
        description := "Check emails, review calendar, daily priorities." },
      { summary := "Deep Work Block 1", start := dtMin day 8 0, end_ := dtMin day 10 0
        description := "High-focus tasks (strategy, development)." },
      { summary := "Break", start := dtMin day 10 0, end_ := dtMin day 10 30
        description := "Hydration, quick walk, snack." },
      { summary := "Deep Work Block 2", start := dtMin day 10 30, end_ := dtMin day 12 30
        description := "Follow-ups, calls, business strategy." },
      { summary := "Lunch Break", start := dtMin day 12 30, end_ := dtMin day 13 30
        description := "Lunch and short rest." },
      { summary := "Operational Work", start := dtMin day 13 30, end_ := dtMin day 15 30
        description := "Admin tasks, scheduling, finances." },
      { summary := "Break", start := dtMin day 15 30, end_ := dtMin day 16 0
        description := "Hydration, check messages." },
      { summary := "Marketing & Outreach", start := dtMin day 16 0, end_ := dtMin day 18 0
        description := "Networking, contacting leads/partners, social media." },
      { summary := "Wrap-Up & Personal Time", start := dtMin day 18 0, end_ := dtMin day 19 0
        description := "Review day, finalize tasks, short break." },
      { summary := "Family/Personal", start := dtMin day 19 0, end_ := dtMin day 20 0
        description := "Dinner, relax, personal hobbies." },
      { summary := "Optional Work/Study", start := dtMin day 20 0, end_ := dtMin day 21 0
        description := "Light tasks, reading, or wind down." },
      { summary := "Wind Down", start := dtMin day 21 0, end_ := dtMin day 22 0
        description := "Relaxation, reflection, prep for sleep." } ]
  else if weekday = 5 then
    [ { summary := "Late Morning Start", start := dtMin day 8 0, end_ := dtMin day 9 0
        description := "Slightly slower morning routine on Saturday." },
      { summary := "Big-Picture Planning", start := dtMin day 9 0, end_ := dtMin day 11 0
        description := "Industry reading, brainstorming, strategy." },
      { summary := "Family/Personal Time", start := dtMin day 11 0, end_ := dtMin day 14 0
        description := "Lunch, hobbies, relaxation." },
      { summary := "Creative Brainstorm Session", start := dtMin day 14 0, end_ := dtMin day 16 0
        description := "Think about new product ideas or improvement." },
      { summary := "Short Work Session (Optional)", start := dtMin day 16 0, end_ := dtMin day 18 0
        description := "Tie up loose ends if needed." },
      { summary := "Evening Relaxation", start := dtMin day 18 0, end_ := dtMin day 20 0
        description := "Dinner, time with family/friends." },
      { summary := "Light Review", start := dtMin day 20 0, end_ := dtMin day 21 0
        description := "Optional reflection on the week." } ]
  else
    [ { summary := "Rest & Leisure", start := dtMin day 9 0, end_ := dtMin day 12 0
        description := "Sleep in, family time, minimal to-do." },
      { summary := "Personal / Family Time", start := dtMin day 12 0, end_ := dtMin day 18 0
        description := "Relax, hobbies, no major work." },
      { summary := "Light Weekly Planning", start := dtMin day 18 0, end_ := dtMin day 19 0
        description := "Short session to prep for Monday." } ]

/-- The daily-focus event `main` prepends to each day's expansion. -/
def focusEvent (day : Nat) : EvSpec :=
  { summary := weekdayFocus (day % 7), start := dtMin day 0 0, end_ := dtMin day 0 15
    description := "Daily Theme: " ++ weekdayFocus (day % 7) }

/-- One day of `main`'s expansion: the focus event inserted at the front
of the day's template events. -/
def expandDay (day : Nat) : List EvSpec :=
  focusEvent day :: weekdaySchedule day (day % 7)

/-- The `while start_date <= end_date` expansion loop of `main`
(`add_january_events.py`), accumulating every day's events in order. -/
def expandRange (startD endD : Nat) : List EvSpec :=
  if startD ≤ endD then expandDay startD ++ expandRange (startD + 1) endD else []
termination_by endD + 1 - startD
decreasing_by omega

/-!  ### A failing Calendar Service (for the partial-failure claim)  -/

/-- Configuration of an adapter that fails `Create` for selected desired
events (identified by summary and window). -/
structure FailSpec where
  failCreate : String → Nat → Nat → Bool

/-- Outcome of a run against a fallible service: either the full action
log, or — when a service call raises — the log, state and message at the
moment the exception escaped `main` (the Python scripts install no
`try`/`except`, so the first service error aborts the run). -/
inductive RunResult where
  | ok (report : List Act) (s : CalState)
  | err (report : List Act) (s : CalState) (msg : String)
  deriving Repr, DecidableEq

/-- `stepU` against a service whose `Create` may fail. -/
def stepUF (fs : FailSpec) (s : CalState) (b : Blk) : Except String (Act × CalState) :=
  match findEvt s b.summary b.bstart b.bend with
  | some e => .ok (Act.updated e.id b.desc, updateEvent s e.id (updateBody e b.desc))
  | none =>
      if fs.failCreate b.summary b.bstart b.bend then
        .error "service error: create failed"
      else
        let (e, s') := createEvent s b.summary b.bstart b.bend b.desc
        .ok (Act.created e.id b.summary b.bstart b.bend b.desc, s')

/-- `main` of `update_deep_work_jan_2025.py` run against a fallible
service: an uncaught service error ends the run at once, keeping the
actions and remote mutations already performed. -/
def runUF (fs : FailSpec) : List Blk → CalState → RunResult
  | [], s => .ok [] s
  | b :: bs, s =>
      match stepUF fs s b with
      | .error m => .err [] s m
      | .ok (a, s') =>
          match runUF fs bs s' with
          | .ok r s'' => .ok (a :: r) s''
          | .err r s'' m => .err (a :: r) s'' m

/-- An empty remote calendar, used by concrete instantiations. -/
def emptyCal : CalState := { events := [], nextId := 0 }

/-- A one-day schedule table used by concrete instantiations. -/
def sampleDay : DayInfo :=
  { date := 2, block1_title := "Deep Work Block 1", block1_desc := "X",
    block2_title := "Deep Work Block 2", block2_desc := "B2" }

/-- A sanity check on the embedding: upserting one day's blocks into an
empty calendar creates both. -/
example :
    (runU (schedBlocks [sampleDay]) emptyCal).1 =
      [Act.created 0 "Deep Work Block 1" (2*1440+480) (2*1440+600) "X",
       Act.created 1 "Deep Work Block 2" (2*1440+630) (2*1440+750) "B2"] := by
  decide

/-!  ### Basic lemmas about the service model  -/

theorem startsWithChars_self : ∀ l : List Char, startsWithChars l l = true
  | [] => rfl
  | c :: cs => by simp [startsWithChars, startsWithChars_self cs]

theorem charsOccur_self : ∀ l : List Char, charsOccur l l = true
  | [] => rfl
  | _ :: _ => by simp [charsOccur, startsWithChars_self]

/-- An exact (case-insensitive) title match always passes the server-side
`q` filter: the scripts' reliance on `q=summary` returning true matches. -/
theorem qMatch_of_lowEq {t : String} {e : RemoteEvent}
    (h : lowEq e.summary t = true) : qMatch t e = true := by
  have h' : lowChars e.summary = lowChars t := by
    simpa [lowEq] using h
  simp [qMatch, strContainsCI, h', charsOccur_self]

/-- Exact candidate test for the matcher: in-window and exact
case-insensitive title equality. -/
def isCand (t : String) (st en : Nat) (e : RemoteEvent) : Bool :=
  overlapsWin e st en && lowEq e.summary t

theorem mem_insertByStart {x e : RemoteEvent} {l : List RemoteEvent} :
    x ∈ insertByStart e l ↔ x = e ∨ x ∈ l := by
  induction l with
  | nil => simp [insertByStart]
  | cons f r ih =>
      unfold insertByStart
      split
      · simp only [List.mem_cons, ih]
        tauto
      · simp only [List.mem_cons]

theorem mem_sortByStart {x : RemoteEvent} {l : List RemoteEvent} :
    x ∈ sortByStart l ↔ x ∈ l := by
  induction l with
  | nil => simp [sortByStart]
  | cons f r ih => simp [sortByStart, mem_insertByStart, ih]

theorem sorted_insertByStart {e : RemoteEvent} {l : List RemoteEvent}
    (h : l.Pairwise (fun a b => a.start ≤ b.start)) :
    (insertByStart e l).Pairwise (fun a b => a.start ≤ b.start) := by
  induction l with
  | nil => simp [insertByStart]
  | cons f r ih =>
      rw [List.pairwise_cons] at h
      obtain ⟨hf, hr⟩ := h
      unfold insertByStart
      split
      · rename_i hlt
        rw [List.pairwise_cons]
        refine ⟨?_, ih hr⟩
        intro x hx
        rcases mem_insertByStart.mp hx with rfl | hx
        · omega
        · exact hf x hx
      · rename_i hge
        rw [List.pairwise_cons]
        constructor
        · intro x hx
          rcases List.mem_cons.mp hx with rfl | hx
          · omega
          · have := hf x hx; omega
        · exact List.pairwise_cons.mpr ⟨hf, hr⟩

theorem sorted_sortByStart (l : List RemoteEvent) :
    (sortByStart l).Pairwise (fun a b => a.start ≤ b.start) := by
  induction l with
  | nil => simp [sortByStart]
  | cons f r ih => exact sorted_insertByStart ih

theorem find?_insertByStart_neg {p : RemoteEvent → Bool} {e : RemoteEvent}
    {l : List RemoteEvent} (hp : p e = false) :
    (insertByStart e l).find? p = l.find? p := by
  induction l with
  | nil => simp [insertByStart, List.find?, hp]
  | cons f r ih =>
      unfold insertByStart
      split
      · cases hpf : p f <;> simp [List.find?, hpf, ih]
      · simp [List.find?, hp]

theorem find?_insertByStart_pos {p : RemoteEvent → Bool} {e : RemoteEvent}
    {l : List RemoteEvent}
    (hl : l.Pairwise (fun a b => a.start ≤ b.start)) (hp : p e = true) :
    (insertByStart e l).find? p =
      match l.find? p with
      | some m => if m.start < e.start then some m else some e
      | none => some e := by
  induction l with
  | nil => simp [insertByStart, List.find?, hp]
  | cons f r ih =>
      rw [List.pairwise_cons] at hl
      obtain ⟨hf, hr⟩ := hl
      unfold insertByStart
      split
      · rename_i hlt
        cases hpf : p f
        · simp only [List.find?, hpf]
          exact ih hr
        · simp [List.find?, hpf, hlt]
      · rename_i hge
        rw [List.find?_cons_of_pos _ hp]
        cases hm : (f :: r).find? p with
        | none => rfl
        | some m =>
            have hmem : m ∈ f :: r := List.mem_of_find?_eq_some hm
            have hge2 : ¬ m.start < e.start := by
              rcases List.mem_cons.mp hmem with rfl | hmr
              · omega
              · have := hf m hmr; omega
            simp [hge2]

theorem head?_insertByStart (e : RemoteEvent) (l : List RemoteEvent) :
    (insertByStart e l).head? =
      match l.head? with
      | some m => if m.start < e.start then some m else some e
      | none => some e := by
  cases l with
  | nil => simp [insertByStart]
  | cons f r =>
      unfold insertByStart
      split <;> rename_i h
      · show (f :: insertByStart e r).head? = if f.start < e.start then some f else some e
        rw [if_pos h]; rfl
      · show (e :: f :: r).head? = if f.start < e.start then some f else some e
        rw [if_neg h]; rfl

/-- The first exact match in the full (fuzzily filtered, sorted) listing
is the head of the sorted list of exact candidates alone. -/
theorem find?_sortByStart_eq_head (p : RemoteEvent → Bool) (l : List RemoteEvent) :
    (sortByStart l).find? p = (sortByStart (l.filter p)).head? := by
  induction l with
  | nil => simp [sortByStart]
  | cons x l ih =>
      cases hp : p x
      · rw [sortByStart, find?_insertByStart_neg hp, List.filter_cons_of_neg (by simp [hp])]
        exact ih
      · rw [sortByStart, find?_insertByStart_pos (sorted_sortByStart l) hp,
          List.filter_cons_of_pos (by simp [hp]), sortByStart, head?_insertByStart, ih]

theorem mem_of_head?_eq_some {α : Type} {l : List α} {a : α}
    (h : l.head? = some a) : a ∈ l := by
  cases l <;> simp_all

theorem insertByStart_ne_nil (e : RemoteEvent) (l : List RemoteEvent) :
    insertByStart e l ≠ [] := by
  cases l with
  | nil => simp [insertByStart]
  | cons f r =>
      unfold insertByStart
      split <;> simp

theorem sortByStart_eq_nil {l : List RemoteEvent} :
    sortByStart l = [] ↔ l = [] := by
  cases l with
  | nil => simp [sortByStart]
  | cons f r => simp [sortByStart, insertByStart_ne_nil]

/-- Characterisation of the matcher: the first exact match in the fuzzily
pre-filtered, start-ordered listing is exactly the head of the start-sorted
list of exact in-window candidates — the fuzzy entries are irrelevant. -/
theorem findEvt_eq (s : CalState) (t : String) (st en : Nat) :
    findEvt s t st en = (sortByStart (s.events.filter (isCand t st en))).head? := by
  unfold findEvt firstExactMatch listEvents
  rw [find?_sortByStart_eq_head, List.filter_filter]
  congr 1
  apply congrArg
  apply List.filter_congr
  intro e _
  cases hle : lowEq e.summary t
  · simp [isCand, hle]
  · simp [isCand, hle, qMatch_of_lowEq hle]

/-- A found event is a listed, in-window, exactly matching event. -/
theorem findEvt_sound {s : CalState} {t : String} {st en : Nat} {e : RemoteEvent}
    (h : findEvt s t st en = some e) :
    e ∈ s.events ∧ isCand t st en e = true := by
  rw [findEvt_eq] at h
  have hm := mem_of_head?_eq_some h
  rw [mem_sortByStart] at hm
  exact ⟨(List.mem_filter.mp hm).1, (List.mem_filter.mp hm).2⟩

/-- The matcher returns `none` exactly when no in-window event matches the
title exactly. -/
theorem findEvt_none_iff {s : CalState} {t : String} {st en : Nat} :
    findEvt s t st en = none ↔ ∀ e ∈ s.events, isCand t st en e = false := by
  rw [findEvt_eq, List.head?_eq_none_iff, sortByStart_eq_nil, List.filter_eq_nil_iff]
  constructor
  · intro h e he
    exact Bool.eq_false_iff.mpr (h e he)
  · intro h e he
    exact Bool.eq_false_iff.mp (h e he)

/-- The matcher picks a candidate of minimal start time. -/
theorem findEvt_minStart {s : CalState} {t : String} {st en : Nat} {e : RemoteEvent}
    (h : findEvt s t st en = some e) :
    ∀ e' ∈ s.events, isCand t st en e' = true → e.start ≤ e'.start := by
  intro e' he' hc
  rw [findEvt_eq] at h
  have hm : e' ∈ sortByStart (s.events.filter (isCand t st en)) :=
    mem_sortByStart.mpr (List.mem_filter.mpr ⟨he', hc⟩)
  have hs := sorted_sortByStart (s.events.filter (isCand t st en))
  cases hl : sortByStart (s.events.filter (isCand t st en)) with
  | nil => rw [hl] at h; simp at h
  | cons a rest =>
      rw [hl] at h hm hs
      have ha : a = e := by simpa using h
      subst ha
      rcases List.mem_cons.mp hm with rfl | hmr
      · omega
      · exact (List.pairwise_cons.mp hs).1 e' hmr

/-!  ### Shape machinery: the matcher ignores descriptions  -/

/-- Two events agree on everything the matcher inspects (id, title,
window); only description / extra may differ. -/
def keyEq (a b : RemoteEvent) : Prop :=
  a.id = b.id ∧ a.summary = b.summary ∧ a.start = b.start ∧ a.end_ = b.end_

theorem keyEq_refl (a : RemoteEvent) : keyEq a a := ⟨rfl, rfl, rfl, rfl⟩

theorem isCand_congr {a b : RemoteEvent} (h : keyEq a b) (t : String) (st en : Nat) :
    isCand t st en a = isCand t st en b := by
  obtain ⟨_, h2, h3, h4⟩ := h
  simp [isCand, overlapsWin, lowEq, h2, h3, h4]

theorem filter_cand_keyResp {l l' : List RemoteEvent}
    (h : List.Forall₂ keyEq l l') (t : String) (st en : Nat) :
    List.Forall₂ keyEq (l.filter (isCand t st en)) (l'.filter (isCand t st en)) := by
  induction h with
  | nil => simp
  | cons hab hrest ih =>
      rename_i a b l₁ l₂
      cases hc : isCand t st en b
      · rw [List.filter_cons_of_neg (by rw [isCand_congr hab]; simp [hc]),
          List.filter_cons_of_neg (by simp [hc])]
        exact ih
      · rw [List.filter_cons_of_pos (by rw [isCand_congr hab]; simp [hc]),
          List.filter_cons_of_pos (by simp [hc])]
        exact List.Forall₂.cons hab ih

theorem insertByStart_keyResp {e e' : RemoteEvent} {l l' : List RemoteEvent}
    (he : keyEq e e') (h : List.Forall₂ keyEq l l') :
    List.Forall₂ keyEq (insertByStart e l) (insertByStart e' l') := by
  induction h with
  | nil => simpa [insertByStart] using List.Forall₂.cons he List.Forall₂.nil
  | cons hab hrest ih =>
      rename_i a b l₁ l₂
      unfold insertByStart
      have hst : a.start = b.start := hab.2.2.1
      have hest : e.start = e'.start := he.2.2.1
      by_cases hlt : a.start < e.start
      · rw [if_pos hlt, if_pos (by omega)]
        exact List.Forall₂.cons hab ih
      · rw [if_neg hlt, if_neg (by omega)]
        exact List.Forall₂.cons he (List.Forall₂.cons hab hrest)

theorem sortByStart_keyResp {l l' : List RemoteEvent}
    (h : List.Forall₂ keyEq l l') :
    List.Forall₂ keyEq (sortByStart l) (sortByStart l') := by
  induction h with
  | nil => simp [sortByStart]
  | cons hab hrest ih => exact insertByStart_keyResp hab ih

theorem head?_keyResp {l l' : List RemoteEvent}
    (h : List.Forall₂ keyEq l l') :
    (l.head? = none ∧ l'.head? = none) ∨
      ∃ a b, l.head? = some a ∧ l'.head? = some b ∧ keyEq a b := by
  cases h with
  | nil => left; exact ⟨rfl, rfl⟩
  | cons hab hrest =>
      right
      rename_i a b l₁ l₂
      exact ⟨a, b, rfl, rfl, hab⟩

/-- States with key-equal event lists produce key-equal matcher results:
in particular the same match id, independent of any description edits. -/
theorem findEvt_keyResp {s u : CalState}
    (h : List.Forall₂ keyEq s.events u.events) (t : String) (st en : Nat) :
    (findEvt s t st en = none ∧ findEvt u t st en = none) ∨
      (∃ a b, findEvt s t st en = some a ∧ findEvt u t st en = some b ∧ keyEq a b) := by
  rw [findEvt_eq, findEvt_eq]
  exact head?_keyResp (sortByStart_keyResp (filter_cand_keyResp h t st en))

/-!  ### Well-formed states: unique ids  -/

theorem nodupIds_unique {l : List RemoteEvent} (h : nodupIds l = true) :
    ∀ x ∈ l, ∀ y ∈ l, x.id = y.id → x = y := by
  induction l with
  | nil => intro x hx; simp at hx
  | cons e r ih =>
      rw [nodupIds, Bool.and_eq_true, List.all_eq_true] at h
      obtain ⟨hall, hr⟩ := h
      intro x hx y hy hxy
      rcases List.mem_cons.mp hx with rfl | hx' <;>
        rcases List.mem_cons.mp hy with rfl | hy'
      · rfl
      · have := hall y hy'
        simp at this
        omega
      · have := hall x hx'
        simp at this
        omega
      · exact ih hr x hx' y hy' hxy

theorem forall₂_keyEq_map {l : List RemoteEvent} {f : RemoteEvent → RemoteEvent}
    (h : ∀ x ∈ l, keyEq x (f x)) : List.Forall₂ keyEq l (l.map f) := by
  induction l with
  | nil => simp
  | cons e r ih =>
      rw [List.map_cons]
      exact List.Forall₂.cons (h e (List.mem_cons_self e r))
        (ih (fun x hx => h x (List.mem_cons_of_mem e hx)))

/-- A description-only update leaves the event list key-equal: same ids,
titles and windows throughout. -/
theorem updateEvent_keyResp {s : CalState} {e : RemoteEvent} {d : String}
    (hwf : nodupIds s.events = true) (he : e ∈ s.events) :
    List.Forall₂ keyEq s.events (updateEvent s e.id (updateBody e d)).events := by
  apply forall₂_keyEq_map
  intro x hx
  by_cases hid : x.id = e.id
  · have hxe : x = e := nodupIds_unique hwf x hx e he hid
    subst hxe
    simp [updateBody, keyEq]
  · simp [hid, keyEq_refl]

/-!  ### C3: matcher exactness  -/

/-- C3.  The client-side matcher accepts an event only on exact
case-insensitive title equality, no matter what fuzzy candidates the
server returned; it yields `none` when nothing passes that check; and a
`none` result is not an error — the reconciler then issues a `Create`
for the desired block. -/
theorem C3_matcher_exactness :
    (∀ (t : String) (l : List RemoteEvent) (e : RemoteEvent),
        firstExactMatch t l = some e → lowEq e.summary t = true) ∧
    (∀ (t : String) (l : List RemoteEvent),
        (∀ e ∈ l, lowEq e.summary t = false) → firstExactMatch t l = none) ∧
    (∀ (s : CalState) (b : Blk),
        findEvt s b.summary b.bstart b.bend = none →
          (stepU s b).1 = Act.created s.nextId b.summary b.bstart b.bend b.desc) := by
  refine ⟨?_, ?_, ?_⟩
  · intro t l e h
    unfold firstExactMatch at h
    exact @List.find?_some _ (fun x => lowEq x.summary t) e l h
  · intro t l h
    unfold firstExactMatch
    apply List.find?_eq_none.mpr
    intro e he
    simp [h e he]
  · intro s b h
    unfold stepU
    rw [h]
    simp [createEvent]

/-- Events and states used by the concrete instantiations below. -/
def evA : RemoteEvent :=
  { id := 10, summary := "Deep Work Block 1", start := 2 * 1440 + 480
    end_ := 2 * 1440 + 600, description := "old A", extra := "roomZ" }

def evB : RemoteEvent :=
  { id := 11, summary := "deep work block 1", start := 2 * 1440 + 500
    end_ := 2 * 1440 + 590, description := "old B", extra := "" }

def sTwo : CalState := { events := [evA, evB], nextId := 12 }

def sOne : CalState := { events := [evA], nextId := 12 }

def blkA : Blk :=
  { summary := "Deep Work Block 1", bstart := 2 * 1440 + 480
    bend := 2 * 1440 + 600, desc := "new desc" }

theorem C3_matcher_exactness_witness :
    lowEq evB.summary "Deep Work Block 1" = true ∧
    firstExactMatch "Planning" [evA] = none ∧
    (stepU emptyCal blkA).1 =
      Act.created 0 "Deep Work Block 1" (2 * 1440 + 480) (2 * 1440 + 600) "new desc" :=
  ⟨C3_matcher_exactness.1 "Deep Work Block 1" [evB] evB (by decide),
   C3_matcher_exactness.2.1 "Planning" [evA] (by decide),
   C3_matcher_exactness.2.2 emptyCal blkA (by decide)⟩

/-!  ### C4: tie-break yes, collision surfacing no  -/

/-- C4 counterexample.  `sTwo` holds two distinct events that both match
the desired title exactly in the window, yet the matcher's output — and
the whole run's action log — are identical to those on `sOne`, which
holds only the selected event: the collision is silently hidden, not
logged or reported to the caller, refuting the claim's reporting half. -/
theorem C4_counterexample :
    (sTwo.events.filter (isCand "Deep Work Block 1" (2 * 1440 + 480) (2 * 1440 + 600))).length = 2 ∧
    findEvt sTwo "Deep Work Block 1" (2 * 1440 + 480) (2 * 1440 + 600) =
      findEvt sOne "Deep Work Block 1" (2 * 1440 + 480) (2 * 1440 + 600) ∧
    (runU [blkA] sTwo).1 = (runU [blkA] sOne).1 := by
  decide

/-- C4 amended.  When several remote events match exactly, the matcher
does select one with the earliest start (first in the start-ordered
listing); but no collision is logged or reported — the result is the
same whatever else was listed after the match. -/
theorem C4_matcher_earliest_start :
    (∀ (s : CalState) (t : String) (st en : Nat) (e : RemoteEvent),
        findEvt s t st en = some e →
        ∀ e' ∈ s.events, isCand t st en e' = true → e.start ≤ e'.start) ∧
    (∀ (t : String) (e : RemoteEvent) (l l' : List RemoteEvent),
        lowEq e.summary t = true →
        firstExactMatch t (e :: l) = firstExactMatch t (e :: l')) := by
  constructor
  · intro s t st en e h
    exact findEvt_minStart h
  · intro t e l l' h
    unfold firstExactMatch
    rw [@List.find?_cons_of_pos _ (fun x => lowEq x.summary t) e l h,
      @List.find?_cons_of_pos _ (fun x => lowEq x.summary t) e l' h]

theorem C4_matcher_earliest_start_witness :
    evA.start ≤ evB.start ∧
    firstExactMatch "Deep Work Block 1" [evA, evB] =
      firstExactMatch "Deep Work Block 1" [evA] :=
  ⟨C4_matcher_earliest_start.1 sTwo "Deep Work Block 1" (2 * 1440 + 480)
      (2 * 1440 + 600) evA (by decide) evB (by decide) (by decide),
   C4_matcher_earliest_start.2 "Deep Work Block 1" evA [evB] [] (by decide)⟩

/-!  ### C5: update-in-place frame property  -/

/-- C5.  The body sent to `Update` is the found event with only its
description overwritten — id, title, window and every service-side field
(`extra`) are untouched; and re-running the upsert step keeps matching
the same event id, so the id is stable across repeated runs. -/
theorem C5_update_frame :
    (∀ (e : RemoteEvent) (d : String),
        (updateBody e d).id = e.id ∧ (updateBody e d).summary = e.summary ∧
        (updateBody e d).start = e.start ∧ (updateBody e d).end_ = e.end_ ∧
        (updateBody e d).extra = e.extra ∧ (updateBody e d).description = d) ∧
    (∀ (s : CalState) (b : Blk) (e : RemoteEvent),
        nodupIds s.events = true →
        findEvt s b.summary b.bstart b.bend = some e →
        ∃ e', findEvt (stepU s b).2 b.summary b.bstart b.bend = some e' ∧
          e'.id = e.id) := by
  constructor
  · intro e d
    simp [updateBody]
  · intro s b e hwf h
    have hmem := (findEvt_sound h).1
    have hrel := updateEvent_keyResp (d := b.desc) hwf hmem
    unfold stepU
    rw [h]
    rcases findEvt_keyResp hrel b.summary b.bstart b.bend with ⟨h1, _⟩ | ⟨a, c, h1, h2, hk⟩
    · rw [h] at h1; cases h1
    · rw [h] at h1
      cases h1
      exact ⟨c, h2, hk.1.symm⟩

theorem C5_update_frame_witness :
    ((updateBody evA "new").id = evA.id ∧ (updateBody evA "new").summary = evA.summary ∧
      (updateBody evA "new").start = evA.start ∧ (updateBody evA "new").end_ = evA.end_ ∧
      (updateBody evA "new").extra = evA.extra ∧ (updateBody evA "new").description = "new") ∧
    ∃ e', findEvt (stepU sOne blkA).2 blkA.summary blkA.bstart blkA.bend = some e' ∧
      e'.id = evA.id :=
  ⟨C5_update_frame.1 evA "new",
   C5_update_frame.2 sOne blkA evA (by decide) (by decide)⟩

/-!  ### C2: replace-mode cleanup  -/

theorem lowEq_refl (a : String) : lowEq a a = true := by simp [lowEq]

/-- The script's lowercase literal agrees with lowercasing the fixed
title. -/
theorem mktLow : lowChars mktTitle = "marketing & outreach".toList := by decide

/-- The delete pass's hit test coincides with exact case-insensitive
equality against the fixed title. -/
theorem mktHit_eq_lowEq (e : RemoteEvent) :
    (lowChars e.summary = "marketing & outreach".toList : Bool) =
      lowEq e.summary mktTitle := by
  simp only [lowEq, mktLow]

/-- Deleting a list of events one by one removes exactly the events whose
id occurs in the list. -/
theorem foldl_deleteEvent (hs : List RemoteEvent) (s : CalState) :
    hs.foldl (fun acc e => deleteEvent acc e.id) s =
      { events := s.events.filter (fun e => !(hs.any (fun h => e.id = h.id)))
        nextId := s.nextId } := by
  induction hs generalizing s with
  | nil => simp
  | cons h hs ih =>
      rw [List.foldl_cons, ih]
      unfold deleteEvent
      congr 1
      rw [List.filter_filter]
      apply List.filter_congr
      intro e _
      rw [List.any_cons, Bool.not_or, Bool.and_comm]

/-- Membership in the delete pass's hit list: exactly the stored events
that overlap the window and match the title exactly. -/
theorem deleteExisting_hits (s : CalState) (st en : Nat) (e : RemoteEvent) :
    e ∈ (listEvents s st en mktTitle).filter
        (fun x => (lowChars x.summary = "marketing & outreach".toList : Bool)) ↔
      e ∈ s.events ∧ isCand mktTitle st en e = true := by
  rw [List.mem_filter]
  unfold listEvents
  rw [mem_sortByStart, List.mem_filter]
  constructor
  · rintro ⟨⟨he, hq⟩, hx⟩
    rw [mktHit_eq_lowEq] at hx
    rw [Bool.and_eq_true] at hq
    exact ⟨he, by simp [isCand, hq.1, hx]⟩
  · rintro ⟨he, hc⟩
    rw [isCand, Bool.and_eq_true] at hc
    refine ⟨⟨he, ?_⟩, by rw [mktHit_eq_lowEq]; exact hc.2⟩
    simp [hc.1, qMatch_of_lowEq hc.2]

/-- State effect of `delete_existing_marketing_events`: under unique ids,
exactly the in-window exact-title events disappear; nothing else changes. -/
theorem deleteExisting_state {s : CalState} (hwf : nodupIds s.events = true)
    (st en : Nat) :
    (deleteExisting s st en).2 =
      { events := s.events.filter (fun e => !(isCand mktTitle st en e))
        nextId := s.nextId } := by
  simp only [deleteExisting, foldl_deleteEvent]
  congr 1
  apply List.filter_congr
  intro e he
  congr 1
  cases hc : isCand mktTitle st en e
  · apply Bool.eq_false_iff.mpr
    simp only [ne_eq, List.any_eq_true, decide_eq_true_eq, not_exists, not_and]
    intro h hh hid
    have hhs := (deleteExisting_hits s st en h).mp hh
    have : h = e := nodupIds_unique hwf h hhs.1 e he hid.symm
    subst this
    rw [hhs.2] at hc
    cases hc
  · simp only [List.any_eq_true, decide_eq_true_eq]
    exact ⟨e, (deleteExisting_hits s st en e).mpr ⟨he, hc⟩, rfl⟩

/-- The delete pass reports exactly one `Deleted` per in-window
exact-title event (in listed order). -/
theorem deleteExisting_report (s : CalState) (st en : Nat) :
    (deleteExisting s st en).1 =
      ((listEvents s st en mktTitle).filter
          (fun x => (lowChars x.summary = "marketing & outreach".toList : Bool))).map
        (fun e => Act.deleted e.id) := by
  rfl

/-- State effect of one replace-mode iteration: purge the window's exact
matches, then append the fresh event with the service's next id. -/
theorem stepR_state {s : CalState} (hwf : nodupIds s.events = true) (sl : Slot) :
    (stepR s sl).2 =
      { events := s.events.filter (fun e => !(isCand mktTitle sl.sstart sl.send e)) ++
          [{ id := s.nextId, summary := mktTitle, start := sl.sstart
             end_ := sl.send, description := sl.sdesc, extra := "" }]
        nextId := s.nextId + 1 } := by
  have h1 : (stepR s sl).2 =
      (createEvent (deleteExisting s sl.sstart sl.send).2 mktTitle
        sl.sstart sl.send sl.sdesc).2 := rfl
  rw [h1, deleteExisting_state hwf]
  rfl

/-- Report of one replace-mode iteration: one `Deleted` per purged event,
then the single `Created`. -/
theorem stepR_report {s : CalState} (hwf : nodupIds s.events = true) (sl : Slot) :
    (stepR s sl).1 =
      ((listEvents s sl.sstart sl.send mktTitle).filter
          (fun x => (lowChars x.summary = "marketing & outreach".toList : Bool))).map
        (fun e => Act.deleted e.id) ++
        [Act.created s.nextId mktTitle sl.sstart sl.send sl.sdesc] := by
  have h1 : (stepR s sl).1 =
      (deleteExisting s sl.sstart sl.send).1 ++
        [Act.created (deleteExisting s sl.sstart sl.send).2.nextId mktTitle
          sl.sstart sl.send sl.sdesc] := rfl
  rw [h1, deleteExisting_report, deleteExisting_state hwf]

/-- Every slot the marketing script generates is the 16:00–18:00 window
of some date; in particular its window is nonempty. -/
theorem schedMkt_window {weeks : List Week} {sl : Slot} (h : sl ∈ schedMkt weeks) :
    ∃ d, sl.sstart = d * 1440 + 16 * 60 ∧ sl.send = d * 1440 + 18 * 60 := by
  unfold schedMkt at h
  rw [List.mem_flatMap] at h
  obtain ⟨w, _, hw⟩ := h
  unfold weekSlots at hw
  simp only [List.mem_cons, List.not_mem_nil, or_false] at hw
  rcases hw with rfl | rfl | rfl | rfl | rfl
  · exact ⟨w.start_date + 0, rfl, rfl⟩
  · exact ⟨w.start_date + 1, rfl, rfl⟩
  · exact ⟨w.start_date + 2, rfl, rfl⟩
  · exact ⟨w.start_date + 3, rfl, rfl⟩
  · exact ⟨w.start_date + 4, rfl, rfl⟩

/-- C2.  One replace-mode pass on any prior calendar state deletes (with
a `Deleted` report entry each) exactly the remote events in the slot's
window whose title equals the desired title case-insensitively, then
creates exactly one fresh event, so exactly one matching event survives
in the window and its description is the desired notes; with zero
pre-existing matches there are no deletes and the create still happens. -/
theorem C2_replace_cleanup (weeks : List Week) (sl : Slot) (hsl : sl ∈ schedMkt weeks)
    (s : CalState) (hwf : wfState s = true) :
    (stepR s sl).2.events =
        s.events.filter (fun e => !(isCand mktTitle sl.sstart sl.send e)) ++
          [{ id := s.nextId, summary := mktTitle, start := sl.sstart
             end_ := sl.send, description := sl.sdesc, extra := "" }] ∧
    (stepR s sl).2.events.filter (isCand mktTitle sl.sstart sl.send) =
        [{ id := s.nextId, summary := mktTitle, start := sl.sstart
           end_ := sl.send, description := sl.sdesc, extra := "" }] ∧
    (stepR s sl).1 =
        ((listEvents s sl.sstart sl.send mktTitle).filter
            (fun x => (lowChars x.summary = "marketing & outreach".toList : Bool))).map
          (fun e => Act.deleted e.id) ++
          [Act.created s.nextId mktTitle sl.sstart sl.send sl.sdesc] ∧
    (s.events.filter (isCand mktTitle sl.sstart sl.send) = [] →
        (stepR s sl).1 = [Act.created s.nextId mktTitle sl.sstart sl.send sl.sdesc]) := by
  have hnd : nodupIds s.events = true := by
    unfold wfState at hwf
    rw [Bool.and_eq_true] at hwf
    exact hwf.1
  have hwin : isCand mktTitle sl.sstart sl.send
      { id := s.nextId, summary := mktTitle, start := sl.sstart
        end_ := sl.send, description := sl.sdesc, extra := "" } = true := by
    obtain ⟨d, h1, h2⟩ := schedMkt_window hsl
    simp [isCand, overlapsWin, lowEq_refl, h1, h2]
  refine ⟨?_, ?_, stepR_report hnd sl, ?_⟩
  · rw [stepR_state hnd]
  · rw [stepR_state hnd]
    show (List.filter (isCand mktTitle sl.sstart sl.send)
        (s.events.filter (fun e => !(isCand mktTitle sl.sstart sl.send e)) ++ _)) = _
    rw [List.filter_append, List.filter_filter]
    simp [hwin]
  · intro hnone
    rw [List.filter_eq_nil_iff] at hnone
    rw [stepR_report hnd sl]
    have : (listEvents s sl.sstart sl.send mktTitle).filter
        (fun x => (lowChars x.summary = "marketing & outreach".toList : Bool)) = [] := by
      rw [List.eq_nil_iff_forall_not_mem]
      intro e hmem
      have := (deleteExisting_hits s sl.sstart sl.send e).mp hmem
      exact absurd this.2 (by simp [hnone e this.1])
    rw [this]
    rfl

/-- A one-week marketing table and a doubled-up prior state used to
instantiate the replace-mode theorems. -/
def weekA : Week :=
  { start_date := 0, focus := "F", mon := some "task"
    tue := none, wed := none, thu := none, fri := none }

def slMon : Slot :=
  { sstart := 16 * 60, send := 18 * 60, sdesc := mkMktDesc "F" "Mon" (some "task") }

def mktEv1 : RemoteEvent :=
  { id := 3, summary := "Marketing & Outreach", start := 16 * 60
    end_ := 18 * 60, description := "stale 1", extra := "" }

def mktEv2 : RemoteEvent :=
  { id := 5, summary := "MARKETING & OUTREACH", start := 17 * 60
    end_ := 17 * 60 + 55, description := "stale 2", extra := "" }

def mktState : CalState := { events := [mktEv1, mktEv2], nextId := 7 }

theorem C2_replace_cleanup_witness :
    (stepR mktState slMon).2.events.filter (isCand mktTitle (16 * 60) (18 * 60)) =
      [{ id := 7, summary := mktTitle, start := 16 * 60, end_ := 18 * 60
         description := mkMktDesc "F" "Mon" (some "task"), extra := "" }] :=
  (C2_replace_cleanup [weekA] slMon (by decide) mktState (by decide)).2.1

/-!  ### C7: there is no validation pass  -/

/-- Every block gets exactly one action: the run never aborts early. -/
theorem runU_length : ∀ (bs : List Blk) (s : CalState),
    ((runU bs s).1).length = bs.length
  | [], _ => rfl
  | b :: bs, s => by
      unfold runU
      simp [runU_length bs (stepU s b).2]

/-- A schedule entry with an empty title, used to instantiate the
validation claims. -/
def badDay : DayInfo :=
  { date := 0, block1_title := "", block1_desc := "d1"
    block2_title := "Deep Work Block 2", block2_desc := "d2" }

/-- C7 counterexample.  A malformed schedule (empty title) is not
rejected: no validation error aborts the run; the script makes its
remote calls and the remote calendar is mutated (here two events are
created, one of them with an empty title). -/
theorem C7_counterexample :
    validBlocks (schedBlocks [badDay]) = false ∧
    (runU (schedBlocks [badDay]) emptyCal).2.events ≠ [] ∧
    (runU (schedBlocks [badDay]) emptyCal).1 =
      [Act.created 0 "" (8 * 60) (10 * 60) "d1",
       Act.created 1 "Deep Work Block 2" (10 * 60 + 30) (12 * 60 + 30) "d2"] := by
  decide

/-- C7 amended.  The scripts perform no validation at all: every desired
block of any schedule — malformed or not — is processed against the
remote service, producing exactly one action per block (the run never
aborts before the remote calls). -/
theorem C7_no_validation (days : List DayInfo) (s : CalState) :
    ((runU (schedBlocks days) s).1).length = (schedBlocks days).length :=
  runU_length (schedBlocks days) s

/-!  ### C6: a service failure aborts the whole run  -/

/-- An adapter configured to fail `Create` for one specific title. -/
def failB1 : FailSpec :=
  { failCreate := fun t _ _ => (t = "Deep Work Block 1" : Bool) }

/-- C6 counterexample.  `sampleDay` yields two desired events; the
adapter fails `Create` for exactly the first one.  The run aborts at
once: the result carries no `Failed` entry for the first event, and the
second event — which should have been `Created` per the claim — is never
processed at all. -/
theorem C6_counterexample :
    (schedBlocks [sampleDay]).length = 2 ∧
    runUF failB1 (schedBlocks [sampleDay]) emptyCal =
      RunResult.err [] emptyCal "service error: create failed" := by
  decide

/-- C6 amended.  Since the scripts install no `try`/`except`, the first
failing service call ends the run: everything before the failure keeps
its effects and its log entries, and no later desired event is
processed. -/
theorem C6_failure_aborts (fs : FailSpec) (pre : List Blk) (b : Blk)
    (post : List Blk) (s : CalState) (r1 : List Act) (s1 : CalState) (m : String)
    (hpre : runUF fs pre s = RunResult.ok r1 s1)
    (hb : stepUF fs s1 b = Except.error m) :
    runUF fs (pre ++ b :: post) s = RunResult.err r1 s1 m := by
  induction pre generalizing s r1 with
  | nil =>
      rw [runUF] at hpre
      cases hpre
      rw [List.nil_append, runUF, hb]
  | cons p pre ih =>
      rw [runUF] at hpre
      rw [List.cons_append, runUF]
      cases hp : stepUF fs s p with
      | error m' =>
          simp only [hp] at hpre
          cases hpre
      | ok as' =>
          obtain ⟨a, s'⟩ := as'
          simp only [hp] at hpre ⊢
          cases hrest : runUF fs pre s' with
          | ok r s'' =>
              simp only [hrest] at hpre
              cases hpre
              rw [ih s' r hrest]
          | err r s'' m'' =>
              simp only [hrest] at hpre
              cases hpre

/-- Blocks of `sampleDay`, named for the failure-abort instantiation. -/
def blkB1 : Blk :=
  { summary := "Deep Work Block 1", bstart := 2 * 1440 + 480
    bend := 2 * 1440 + 600, desc := "X" }

def blkB2 : Blk :=
  { summary := "Deep Work Block 2", bstart := 2 * 1440 + 630
    bend := 2 * 1440 + 750, desc := "B2" }

def s1W : CalState :=
  { events := [{ id := 0, summary := "Deep Work Block 2", start := 2 * 1440 + 630
                 end_ := 2 * 1440 + 750, description := "B2", extra := "" }]
    nextId := 1 }

theorem C6_failure_aborts_witness :
    runUF failB1 ([blkB2] ++ blkB1 :: []) emptyCal =
      RunResult.err [Act.created 0 "Deep Work Block 2" (2 * 1440 + 630)
        (2 * 1440 + 750) "B2"] s1W "service error: create failed" :=
  C6_failure_aborts failB1 [blkB2] blkB1 [] emptyCal
    [Act.created 0 "Deep Work Block 2" (2 * 1440 + 630) (2 * 1440 + 750) "B2"]
    s1W "service error: create failed" (by decide) (by rfl)

/-!  ### C8 / C10: business-day stepping  -/

theorem firstWD_weekday (d : Nat) : firstWD d % 7 < 5 := by
  unfold firstWD
  split
  · rename_i h; omega
  · split
    · rename_i h1 h2; omega
    · rename_i h1 h2; omega

theorem firstWD_ge (d : Nat) : d ≤ firstWD d := by
  unfold firstWD
  split
  · omega
  · split <;> omega

/-- `firstWD d` is the least weekday at or after `d`. -/
theorem firstWD_min (d x : Nat) (hx : d ≤ x) (hw : x % 7 < 5) : firstWD d ≤ x := by
  unfold firstWD
  split
  · rename_i h; omega
  · split
    · rename_i h1 h2; omega
    · omega

theorem businessDays_zero (fuel d : Nat) : businessDays fuel 0 d = [] := by
  cases fuel <;> simp [businessDays]

/-- With enough fuel, the script's `while` loop computes the structural
business-day stepping: jump to the first weekday, assign, recurse from
the next calendar day. -/
theorem businessDays_eq_spec :
    ∀ (n fuel d : Nat), 7 * n + 7 ≤ fuel →
      businessDays fuel n d = businessDaysSpec n d := by
  intro n
  induction n with
  | zero => intro fuel d _; rw [businessDays_zero]; rfl
  | succ n ih =>
      intro fuel d h
      obtain ⟨f1, rfl⟩ : ∃ f, fuel = f + 1 := ⟨fuel - 1, by omega⟩
      by_cases h5 : d % 7 < 5
      · rw [show businessDays (f1 + 1) (n + 1) d =
            d :: businessDays f1 n (d + 1) by
              simp [businessDays, h5]]
        rw [show businessDaysSpec (n + 1) d = firstWD d :: businessDaysSpec n (firstWD d + 1) from rfl]
        have hfw : firstWD d = d := by unfold firstWD; split <;> [omega; skip]; split <;> omega
        rw [hfw, ih f1 (d + 1) (by omega)]
      · by_cases h6 : d % 7 = 5
        · obtain ⟨f2, rfl⟩ : ∃ f, f1 = f + 1 := ⟨f1 - 1, by omega⟩
          obtain ⟨f3, rfl⟩ : ∃ f, f2 = f + 1 := ⟨f2 - 1, by omega⟩
          have h61 : (d + 1) % 7 = 6 := by omega
          have h62 : (d + 2) % 7 = 0 := by omega
          rw [show businessDays (f3 + 1 + 1 + 1) (n + 1) d =
              businessDays (f3 + 1 + 1) (n + 1) (d + 1) by
                simp [businessDays, h5, h6]]
          rw [show businessDays (f3 + 1 + 1) (n + 1) (d + 1) =
              businessDays (f3 + 1) (n + 1) (d + 2) by
                simp [businessDays, h61]]
          rw [show businessDays (f3 + 1) (n + 1) (d + 2) =
              (d + 2) :: businessDays f3 n (d + 3) by
                simp [businessDays, h62]]
          rw [show businessDaysSpec (n + 1) d =
              firstWD d :: businessDaysSpec n (firstWD d + 1) from rfl]
          have hfw : firstWD d = d + 2 := by unfold firstWD; rw [if_pos h6]
          rw [hfw, ih f3 (d + 3) (by omega)]
        · have h7 : d % 7 = 6 := by omega
          obtain ⟨f2, rfl⟩ : ∃ f, f1 = f + 1 := ⟨f1 - 1, by omega⟩
          have h71 : (d + 1) % 7 = 0 := by omega
          rw [show businessDays (f2 + 1 + 1) (n + 1) d =
              businessDays (f2 + 1) (n + 1) (d + 1) by
                simp [businessDays, h5, h7]]
          rw [show businessDays (f2 + 1) (n + 1) (d + 1) =
              (d + 1) :: businessDays f2 n (d + 2) by
                simp [businessDays, h71]]
          rw [show businessDaysSpec (n + 1) d =
              firstWD d :: businessDaysSpec n (firstWD d + 1) from rfl]
          have hfw : firstWD d = d + 1 := by
            unfold firstWD
            rw [if_neg (by omega), if_pos h7]
          rw [hfw, ih f2 (d + 2) (by omega)]

theorem businessDaysSpec_weekday :
    ∀ (n d : Nat), ∀ x ∈ businessDaysSpec n d, x % 7 < 5 := by
  intro n
  induction n with
  | zero => intro d x hx; cases hx
  | succ n ih =>
      intro d x hx
      rcases List.mem_cons.mp hx with rfl | hx'
      · exact firstWD_weekday d
      · exact ih (firstWD d + 1) x hx'

theorem businessDaysSpec_chain :
    ∀ (n d : Nat), List.Chain' (fun a b => b = firstWD (a + 1)) (businessDaysSpec n d) := by
  intro n
  induction n with
  | zero => intro d; exact List.chain'_nil
  | succ n ih =>
      intro d
      rw [show businessDaysSpec (n + 1) d =
          firstWD d :: businessDaysSpec n (firstWD d + 1) from rfl]
      rw [List.chain'_cons']
      refine ⟨?_, ih (firstWD d + 1)⟩
      intro y hy
      cases n with
      | zero => cases hy
      | succ n =>
          rw [show businessDaysSpec (n + 1) (firstWD d + 1) =
              firstWD (firstWD d + 1) ::
                businessDaysSpec n (firstWD (firstWD d + 1) + 1) from rfl] at hy
          cases hy
          rfl

theorem businessDaysSpec_length (n d : Nat) :
    (businessDaysSpec n d).length = n := by
  induction n generalizing d with
  | zero => rfl
  | succ n ih =>
      rw [show businessDaysSpec (n + 1) d =
          firstWD d :: businessDaysSpec n (firstWD d + 1) from rfl]
      simp [ih]

theorem businessDaysSpec_head (n d : Nat) (h : 0 < n) :
    (businessDaysSpec n d).head? = some (firstWD d) := by
  cases n with
  | zero => omega
  | succ n => rfl

/-- C8.  For every start date (hence for every weekday phase), the
scheduling loop's index-to-date mapping — given sufficient fuel for its
`while` loop — assigns plan items only to Monday–Friday dates (`d % 7 <
5`), is gapless (each next item sits on `firstWD (previous + 1)`, the
first weekday strictly after the previous date, skipping only
Saturday/Sunday), is strictly monotonic, and starts at the first weekday
at or after the start date. -/
theorem C8_business_day_stepping (start n fuel : Nat) (hf : 7 * n + 7 ≤ fuel) :
    (∀ d ∈ businessDays fuel n start, d % 7 < 5) ∧
    List.Chain' (fun a b => b = firstWD (a + 1)) (businessDays fuel n start) ∧
    (∀ d x, d < x → x % 7 < 5 → firstWD (d + 1) ≤ x) ∧
    List.Chain' (· < ·) (businessDays fuel n start) ∧
    (0 < n → (businessDays fuel n start).head? = some (firstWD start)) := by
  rw [businessDays_eq_spec n fuel start hf]
  refine ⟨businessDaysSpec_weekday n start, businessDaysSpec_chain n start,
    ?_, ?_, businessDaysSpec_head n start⟩
  · intro d x hdx hxw
    exact firstWD_min (d + 1) x (by omega) hxw
  · have hc := businessDaysSpec_chain n start
    apply List.Chain'.imp ?_ hc
    intro a b hb
    have := firstWD_ge (a + 1)
    omega

theorem C8_business_day_stepping_witness :
    (∀ d ∈ businessDays 28 3 3, d % 7 < 5) ∧
    List.Chain' (fun a b => b = firstWD (a + 1)) (businessDays 28 3 3) :=
  ⟨(C8_business_day_stepping 3 3 28 (by decide)).1,
   (C8_business_day_stepping 3 3 28 (by decide)).2.1⟩

/-- C10.  The 3-week script's scheduling loop terminates for every start
date: `7 * n + 7` loop iterations always suffice to place all `n` plan
items (the script has `n = len(PLAN) = 15`), because every stretch of 7
consecutive days contains a weekday; upon termination the loop has
assigned every plan item, to pairwise distinct calendar dates. -/
theorem C10_loop_termination (start n fuel : Nat) (hf : 7 * n + 7 ≤ fuel) :
    businessDays fuel n start = businessDaysSpec n start ∧
    (businessDays fuel n start).length = n ∧
    (businessDays fuel n start).Nodup := by
  refine ⟨businessDays_eq_spec n fuel start hf, ?_, ?_⟩
  · rw [businessDays_eq_spec n fuel start hf]
    exact businessDaysSpec_length n start
  · rw [businessDays_eq_spec n fuel start hf]
    have hc := businessDaysSpec_chain n start
    have hlt : List.Chain' (· < ·) (businessDaysSpec n start) := by
      apply List.Chain'.imp ?_ hc
      intro a b hb
      have := firstWD_ge (a + 1)
      omega
    have hp : (businessDaysSpec n start).Pairwise (· < ·) :=
      List.chain'_iff_pairwise.mp hlt
    exact hp.imp Nat.ne_of_lt

theorem C10_loop_termination_witness :
    (businessDays 112 15 4).length = 15 ∧ (businessDays 112 15 4).Nodup :=
  ⟨(C10_loop_termination 4 15 112 (by decide)).2.1,
   (C10_loop_termination 4 15 112 (by decide)).2.2⟩

/-!  ### C9: expansion determinism  -/

/-- C9.  The January expansion is referentially transparent: two calls of
the template expansion with equal date ranges produce list-equal output —
the same events, hence the same titles, the same start/end times and the
same order.  The expansion depends on nothing but its arguments. -/
theorem C9_expansion_determinism (s1 e1 s2 e2 : Nat)
    (h1 : s1 = s2) (h2 : e1 = e2) :
    expandRange s1 e1 = expandRange s2 e2 ∧
    (expandRange s1 e1).map (fun ev => ev.summary) =
      (expandRange s2 e2).map (fun ev => ev.summary) ∧
    (expandRange s1 e1).map (fun ev => (ev.start, ev.end_)) =
      (expandRange s2 e2).map (fun ev => (ev.start, ev.end_)) := by
  subst h1
  subst h2
  exact ⟨rfl, rfl, rfl⟩

theorem C9_expansion_determinism_witness :
    expandRange 2 32 = expandRange 2 32 ∧
    (expandRange 2 32).map (fun ev => ev.summary) =
      (expandRange 2 32).map (fun ev => ev.summary) ∧
    (expandRange 2 32).map (fun ev => (ev.start, ev.end_)) =
      (expandRange 2 32).map (fun ev => (ev.start, ev.end_)) :=
  C9_expansion_determinism 2 32 2 32 rfl rfl

/-!  ### C1 machinery, upsert side: key-equality algebra  -/

theorem keyEq_symm {a b : RemoteEvent} (h : keyEq a b) : keyEq b a :=
  ⟨h.1.symm, h.2.1.symm, h.2.2.1.symm, h.2.2.2.symm⟩

theorem keyEq_trans {a b c : RemoteEvent} (h1 : keyEq a b) (h2 : keyEq b c) : keyEq a c :=
  ⟨h1.1.trans h2.1, h1.2.1.trans h2.2.1, h1.2.2.1.trans h2.2.2.1,
   h1.2.2.2.trans h2.2.2.2⟩

theorem forall₂_keyEq_refl (l : List RemoteEvent) : List.Forall₂ keyEq l l := by
  induction l with
  | nil => exact List.Forall₂.nil
  | cons e r ih => exact List.Forall₂.cons (keyEq_refl e) ih

theorem forall₂_keyEq_symm {l l' : List RemoteEvent}
    (h : List.Forall₂ keyEq l l') : List.Forall₂ keyEq l' l := by
  induction h with
  | nil => exact List.Forall₂.nil
  | cons hab _ ih => exact List.Forall₂.cons (keyEq_symm hab) ih

theorem forall₂_keyEq_trans {l₁ l₂ l₃ : List RemoteEvent}
    (h1 : List.Forall₂ keyEq l₁ l₂) (h2 : List.Forall₂ keyEq l₂ l₃) :
    List.Forall₂ keyEq l₁ l₃ := by
  induction h1 generalizing l₃ with
  | nil => cases h2; exact List.Forall₂.nil
  | cons hab _ ih =>
      cases h2 with
      | cons hbc hrest => exact List.Forall₂.cons (keyEq_trans hab hbc) (ih hrest)

theorem forall₂_keyEq_append {l₁ l₂ l₃ l₄ : List RemoteEvent}
    (h1 : List.Forall₂ keyEq l₁ l₂) (h2 : List.Forall₂ keyEq l₃ l₄) :
    List.Forall₂ keyEq (l₁ ++ l₃) (l₂ ++ l₄) := by
  induction h1 with
  | nil => exact h2
  | cons hab _ ih => exact List.Forall₂.cons hab ih

theorem forall₂_keyEq_map_id {l l' : List RemoteEvent}
    (h : List.Forall₂ keyEq l l') :
    l.map (fun e => e.id) = l'.map (fun e => e.id) := by
  induction h with
  | nil => rfl
  | cons hab _ ih => simp [hab.1, ih]

/-!  ### C1 machinery, upsert side: well-formedness preservation  -/

/-- `nodupIds` only looks at the ids. -/
theorem nodupIds_congr {l l' : List RemoteEvent}
    (h : l.map (fun e => e.id) = l'.map (fun e => e.id)) :
    nodupIds l = nodupIds l' := by
  induction l generalizing l' with
  | nil => cases l' with
      | nil => rfl
      | cons f r => cases h
  | cons e r ih =>
      cases l' with
      | nil => cases h
      | cons f r' =>
          rw [List.map_cons, List.map_cons] at h
          obtain ⟨h1, h2⟩ := List.cons.injEq .. ▸ h
          rw [nodupIds, nodupIds, ih h2]
          congr 1
          have : ∀ (a b : List RemoteEvent), a.map (fun e => e.id) = b.map (fun e => e.id) →
              ∀ k : Nat, (a.all fun x => !(x.id = k : Bool)) = (b.all fun x => !(x.id = k : Bool)) := by
            intro a
            induction a with
            | nil => intro b hb k; cases b with
                | nil => rfl
                | cons => cases hb
            | cons x xs ihx =>
                intro b hb k
                cases b with
                | nil => cases hb
                | cons y ys =>
                    rw [List.map_cons, List.map_cons] at hb
                    obtain ⟨hb1, hb2⟩ := List.cons.injEq .. ▸ hb
                    rw [List.all_cons, List.all_cons, hb1, ihx ys hb2 k]
          rw [this r r' h2 e.id, h1]

/-- Events of a well-formed state have ids below the counter. -/
theorem wf_id_lt {s : CalState} (h : wfState s = true) :
    ∀ e ∈ s.events, e.id < s.nextId := by
  unfold wfState at h
  rw [Bool.and_eq_true, List.all_eq_true] at h
  intro e he
  simpa using h.2 e he

theorem wf_nodup {s : CalState} (h : wfState s = true) :
    nodupIds s.events = true := by
  unfold wfState at h
  rw [Bool.and_eq_true] at h
  exact h.1

/-- Appending a fresh-id event preserves id-uniqueness. -/
theorem nodupIds_append_fresh {l : List RemoteEvent} {e : RemoteEvent}
    (hfresh : ∀ x ∈ l, x.id ≠ e.id) (h : nodupIds l = true) :
    nodupIds (l ++ [e]) = true := by
  induction l with
  | nil => simp [nodupIds]
  | cons f r ih =>
      rw [nodupIds, Bool.and_eq_true] at h
      rw [List.cons_append, nodupIds, Bool.and_eq_true]
      refine ⟨?_, ih (fun x hx => hfresh x (List.mem_cons_of_mem f hx)) h.2⟩
      rw [List.all_eq_true]
      intro x hx
      rcases List.mem_append.mp hx with hx' | hx'
      · have := List.all_eq_true.mp h.1 x hx'
        simpa using this
      · rw [List.mem_singleton] at hx'
        subst hx'
        have := hfresh f (List.mem_cons_self f r)
        simp
        omega

/-- The update branch rewrites descriptions only, so it keeps the state
key-equal; in particular ids, uniqueness and the counter are unchanged. -/
theorem stepU_update_state {s : CalState} {b : Blk} {e : RemoteEvent}
    (h : findEvt s b.summary b.bstart b.bend = some e) :
    stepU s b = (Act.updated e.id b.desc,
      updateEvent s e.id (updateBody e b.desc)) := by
  unfold stepU
  rw [h]

/-- The event the service stores when the create branch runs. -/
def createdEvt (s : CalState) (b : Blk) : RemoteEvent :=
  { id := s.nextId, summary := b.summary, start := b.bstart
    end_ := b.bend, description := b.desc, extra := "" }

theorem stepU_create_state {s : CalState} {b : Blk}
    (h : findEvt s b.summary b.bstart b.bend = none) :
    stepU s b = (Act.created s.nextId b.summary b.bstart b.bend b.desc,
      { events := s.events ++ [createdEvt s b], nextId := s.nextId + 1 }) := by
  unfold stepU
  rw [h]
  rfl

/-- One upsert step preserves state well-formedness. -/
theorem wf_stepU {s : CalState} (hwf : wfState s = true) (b : Blk) :
    wfState (stepU s b).2 = true := by
  cases h : findEvt s b.summary b.bstart b.bend with
  | some e =>
      rw [stepU_update_state h]
      have hmem := (findEvt_sound h).1
      have hrel := updateEvent_keyResp (d := b.desc) (wf_nodup hwf) hmem
      unfold wfState at hwf ⊢
      rw [Bool.and_eq_true] at hwf
      rw [Bool.and_eq_true]
      constructor
      · rw [← nodupIds_congr (forall₂_keyEq_map_id hrel)]
        exact hwf.1
      · rw [List.all_eq_true]
        intro x hx
        unfold updateEvent at hx
        rw [List.mem_map] at hx
        obtain ⟨y, hy, hyx⟩ := hx
        have hyid := List.all_eq_true.mp hwf.2 y hy
        subst hyx
        by_cases hc : y.id = e.id
        · have heid := List.all_eq_true.mp hwf.2 e hmem
          simp only [hc, if_pos rfl]
          simpa [updateBody] using heid
        · simp [hc]
          simpa using hyid
  | none =>
      rw [stepU_create_state h]
      unfold wfState at hwf ⊢
      rw [Bool.and_eq_true] at hwf
      rw [Bool.and_eq_true]
      constructor
      · apply nodupIds_append_fresh
        · intro x hx
          have := List.all_eq_true.mp hwf.2 x hx
          simp at this
          show x.id ≠ s.nextId
          omega
        · exact hwf.1
      · rw [List.all_eq_true]
        intro x hx
        rcases List.mem_append.mp hx with hx' | hx'
        · have := List.all_eq_true.mp hwf.2 x hx'
          simp at this ⊢
          omega
        · rw [List.mem_singleton] at hx'
          subst hx'
          simp [createdEvt]

theorem wf_runU : ∀ (bs : List Blk) (s : CalState), wfState s = true →
    wfState (runU bs s).2 = true
  | [], _, hwf => hwf
  | b :: bs, s, hwf => wf_runU bs (stepU s b).2 (wf_stepU hwf b)

/-- The service counter never decreases along a run. -/
theorem stepU_nextId_le (s : CalState) (b : Blk) :
    s.nextId ≤ (stepU s b).2.nextId := by
  cases h : findEvt s b.summary b.bstart b.bend with
  | some e => rw [stepU_update_state h]; exact Nat.le_refl _
  | none => rw [stepU_create_state h]; exact Nat.le_succ _

/-!  ### C1 machinery, upsert side: description-write sequences  -/

/-- Overwrite the description of the event with id `i`. -/
def descWrite (l : List RemoteEvent) (i : Nat) (d : String) : List RemoteEvent :=
  l.map (fun e => if e.id = i then { e with description := d } else e)

/-- Apply a sequence of description writes in order. -/
def applyWseq (l : List RemoteEvent) : List (Nat × String) → List RemoteEvent
  | [] => l
  | w :: ws => applyWseq (descWrite l w.1 w.2) ws

/-- The last write a sequence performs on id `i`, if any. -/
def lastW : List (Nat × String) → Nat → Option String
  | [], _ => none
  | w :: ws, i =>
      match lastW ws i with
      | some d => some d
      | none => if w.1 = i then some w.2 else none

/-- A write sequence acts like a single map installing each event's last
write. -/
theorem applyWseq_eq_map (w : List (Nat × String)) : ∀ l : List RemoteEvent,
    applyWseq l w = l.map (fun e =>
      match lastW w e.id with
      | some d => { e with description := d }
      | none => e) := by
  induction w with
  | nil =>
      intro l
      show l = _
      rw [show (fun (e : RemoteEvent) =>
          match lastW [] e.id with
          | some d => { e with description := d }
          | none => e) = fun e => e from rfl]
      rw [List.map_id']
  | cons p w ih =>
      intro l
      obtain ⟨i, d⟩ := p
      show applyWseq (descWrite l i d) w = _
      rw [ih (descWrite l i d)]
      unfold descWrite
      rw [List.map_map]
      apply List.map_congr_left
      intro e _
      have hid : (if e.id = i then { e with description := d } else e).id = e.id := by
        split <;> rfl
      show (match lastW w (if e.id = i then { e with description := d } else e).id with
        | some d' => { (if e.id = i then { e with description := d } else e) with description := d' }
        | none => (if e.id = i then { e with description := d } else e)) =
        (match lastW ((i, d) :: w) e.id with
        | some d' => { e with description := d' }
        | none => e)
      rw [hid]
      rw [show lastW ((i, d) :: w) e.id = (match lastW w e.id with
        | some d'' => some d''
        | none => if i = e.id then some d else none) from rfl]
      cases hlast : lastW w e.id with
      | some d' =>
          by_cases hie : e.id = i
          · rw [if_pos hie]
          · rw [if_neg hie]
      | none =>
          by_cases hie : e.id = i
          · rw [if_pos hie, if_pos hie.symm]
          · rw [if_neg hie, if_neg (fun hc => hie hc.symm)]

theorem lastW_map_fix (w : List (Nat × String)) (e : RemoteEvent) :
    (match lastW w (match lastW w e.id with
       | some d => ({ e with description := d } : RemoteEvent)
       | none => e).id with
     | some d' => { (match lastW w e.id with
         | some d => ({ e with description := d } : RemoteEvent)
         | none => e) with description := d' }
     | none => (match lastW w e.id with
         | some d => ({ e with description := d } : RemoteEvent)
         | none => e)) =
    (match lastW w e.id with
     | some d => ({ e with description := d } : RemoteEvent)
     | none => e) := by
  cases hlast : lastW w e.id <;> simp [hlast]

/-- Re-applying the same write sequence changes nothing. -/
theorem applyWseq_idem (w : List (Nat × String)) (l : List RemoteEvent) :
    applyWseq (applyWseq l w) w = applyWseq l w := by
  rw [applyWseq_eq_map, applyWseq_eq_map, List.map_map]
  apply List.map_congr_left
  intro e _
  exact lastW_map_fix w e

/-- In the found case, the update call's effect is exactly a description
write on the matched id. -/
theorem stepU_update_events {s : CalState} {b : Blk} {e : RemoteEvent}
    (hnd : nodupIds s.events = true)
    (h : findEvt s b.summary b.bstart b.bend = some e) :
    (stepU s b).2.events = descWrite s.events e.id b.desc := by
  rw [stepU_update_state h]
  have hmem := (findEvt_sound h).1
  unfold updateEvent descWrite
  apply List.map_congr_left
  intro x hx
  by_cases hc : x.id = e.id
  · have : x = e := nodupIds_unique hnd x hx e hmem hc
    subst this
    rw [if_pos hc, if_pos hc]
    rfl
  · rw [if_neg hc, if_neg hc]

/-!  ### C1 machinery, upsert side: run structure  -/

/-- Along a run the event list only receives description rewrites and
fresh appended events, each created from one of the processed blocks. -/
theorem runU_shape : ∀ (bs : List Blk) (s : CalState), wfState s = true →
    ∃ cr : List RemoteEvent,
      List.Forall₂ keyEq (runU bs s).2.events (s.events ++ cr) ∧
      (∀ c ∈ cr, s.nextId ≤ c.id ∧
        ∃ b ∈ bs, c.summary = b.summary ∧ c.start = b.bstart ∧ c.end_ = b.bend) := by
  intro bs
  induction bs with
  | nil =>
      intro s _
      refine ⟨[], ?_, by intro c hc; cases hc⟩
      rw [List.append_nil]
      exact forall₂_keyEq_refl _
  | cons b bs ih =>
      intro s hwf
      have hrun : (runU (b :: bs) s).2 = (runU bs (stepU s b).2).2 := rfl
      obtain ⟨cr', hrel', hprops'⟩ := ih (stepU s b).2 (wf_stepU hwf b)
      cases h : findEvt s b.summary b.bstart b.bend with
      | some e =>
          refine ⟨cr', ?_, ?_⟩
          · rw [hrun]
            refine forall₂_keyEq_trans hrel' (forall₂_keyEq_append ?_ (forall₂_keyEq_refl cr'))
            rw [stepU_update_state h]
            exact forall₂_keyEq_symm
              (updateEvent_keyResp (d := b.desc) (wf_nodup hwf) (findEvt_sound h).1)
          · intro c hc
            obtain ⟨hid, b', hb', hprops⟩ := hprops' c hc
            rw [stepU_update_state h] at hid
            exact ⟨hid, b', List.mem_cons_of_mem b hb', hprops⟩
      | none =>
          refine ⟨createdEvt s b :: cr', ?_, ?_⟩
          · rw [hrun]
            have heq : (stepU s b).2.events ++ cr' =
                s.events ++ (createdEvt s b :: cr') := by
              rw [stepU_create_state h]
              show (s.events ++ [createdEvt s b]) ++ cr' = _
              rw [List.append_assoc, List.singleton_append]
            rw [← heq]
            exact hrel'
          · intro c hc
            rcases List.mem_cons.mp hc with rfl | hc'
            · exact ⟨Nat.le_refl _, b, List.mem_cons_self b bs, rfl, rfl, rfl⟩
            · obtain ⟨hid, b', hb', hprops⟩ := hprops' c hc'
              rw [stepU_create_state h] at hid
              exact ⟨by simp at hid; omega, b', List.mem_cons_of_mem b hb', hprops⟩

/-!  ### C1 machinery, upsert side: write traces  -/

/-- The id a block's step writes: the match's id, or the fresh id on
create. -/
def tgtU (s : CalState) (b : Blk) : Nat :=
  match findEvt s b.summary b.bstart b.bend with
  | some e => e.id
  | none => s.nextId

/-- The ids written by each block along a run. -/
def tgtsU : List Blk → CalState → List Nat
  | [], _ => []
  | b :: bs, s => tgtU s b :: tgtsU bs (stepU s b).2

/-- The (id, description) writes a run performs, in order. -/
def writesU (bs : List Blk) (s : CalState) : List (Nat × String) :=
  List.zip (tgtsU bs s) (bs.map (fun b => b.desc))

/-- The events a run creates, in order. -/
def createsU : List Blk → CalState → List RemoteEvent
  | [], _ => []
  | b :: bs, s =>
      match findEvt s b.summary b.bstart b.bend with
      | some _ => createsU bs (stepU s b).2
      | none => createdEvt s b :: createsU bs (stepU s b).2

theorem createsU_ge : ∀ (bs : List Blk) (s : CalState),
    ∀ c ∈ createsU bs s, s.nextId ≤ c.id := by
  intro bs
  induction bs with
  | nil => intro s c hc; cases hc
  | cons b bs ih =>
      intro s c hc
      cases h : findEvt s b.summary b.bstart b.bend with
      | some e =>
          rw [createsU, h] at hc
          have := ih (stepU s b).2 c hc
          rw [stepU_update_state h] at this
          exact this
      | none =>
          rw [createsU, h] at hc
          rcases List.mem_cons.mp hc with rfl | hc'
          · exact Nat.le_refl _
          · have := ih (stepU s b).2 c hc'
            rw [stepU_create_state h] at this
            simp at this
            omega

theorem descWrite_skip {l : List RemoteEvent} {i : Nat} {d : String}
    (h : ∀ e ∈ l, e.id ≠ i) : descWrite l i d = l := by
  unfold descWrite
  rw [show l.map _ = l.map (fun e => e) from List.map_congr_left
    (fun e he => by rw [if_neg (h e he)])]
  rw [List.map_id']

theorem descWrite_append (l₁ l₂ : List RemoteEvent) (i : Nat) (d : String) :
    descWrite (l₁ ++ l₂) i d = descWrite l₁ i d ++ descWrite l₂ i d := by
  unfold descWrite
  rw [List.map_append]

/-- The final event list of a run is its initial events plus the created
events, with each event's description set by the run's last write to it. -/
theorem runU_desc : ∀ (bs : List Blk) (s : CalState), wfState s = true →
    (runU bs s).2.events = applyWseq (s.events ++ createsU bs s) (writesU bs s) := by
  intro bs
  induction bs with
  | nil =>
      intro s _
      show s.events = applyWseq (s.events ++ []) []
      rw [List.append_nil]
      rfl
  | cons b bs ih =>
      intro s hwf
      have hrun : (runU (b :: bs) s).2 = (runU bs (stepU s b).2).2 := rfl
      have hwrites : writesU (b :: bs) s =
          (tgtU s b, b.desc) :: writesU bs (stepU s b).2 := by
        show List.zip (tgtU s b :: tgtsU bs (stepU s b).2)
          (b.desc :: bs.map (fun b => b.desc)) = _
        rw [List.zip_cons_cons]
        rfl
      cases h : findEvt s b.summary b.bstart b.bend with
      | some e =>
          have hid : e.id < s.nextId := wf_id_lt hwf e (findEvt_sound h).1
          have htgt : tgtU s b = e.id := by unfold tgtU; rw [h]
          have hcr : createsU (b :: bs) s = createsU bs (stepU s b).2 := by
            rw [createsU, h]
          rw [hrun, ih (stepU s b).2 (wf_stepU hwf b), hwrites, hcr, htgt]
          show _ = applyWseq (descWrite (s.events ++ createsU bs (stepU s b).2) e.id b.desc) _
          rw [descWrite_append,
            show descWrite s.events e.id b.desc = (stepU s b).2.events from
              (stepU_update_events (wf_nodup hwf) h).symm,
            descWrite_skip (fun c hc => by
              have h1 := createsU_ge bs (stepU s b).2 c hc
              rw [stepU_update_state h] at h1
              have h2 : s.nextId ≤ c.id := h1
              omega)]
      | none =>
          have htgt : tgtU s b = s.nextId := by unfold tgtU; rw [h]
          have hcr : createsU (b :: bs) s =
              createdEvt s b :: createsU bs (stepU s b).2 := by
            rw [createsU, h]
          rw [hrun, ih (stepU s b).2 (wf_stepU hwf b), hwrites, hcr, htgt]
          show _ = applyWseq
            (descWrite (s.events ++ createdEvt s b :: createsU bs (stepU s b).2)
              s.nextId b.desc) _
          have hd1 : descWrite s.events s.nextId b.desc = s.events :=
            descWrite_skip (fun x hx => by
              have := wf_id_lt hwf x hx
              omega)
          have hd2 : descWrite (createdEvt s b :: createsU bs (stepU s b).2)
              s.nextId b.desc = createdEvt s b :: createsU bs (stepU s b).2 := by
            unfold descWrite
            rw [List.map_cons]
            congr 1
            · rw [if_pos (show (createdEvt s b).id = s.nextId from rfl)]
              rfl
            · show descWrite (createsU bs (stepU s b).2) s.nextId b.desc = _
              apply descWrite_skip
              intro c hc
              have h1 := createsU_ge bs (stepU s b).2 c hc
              rw [stepU_create_state h] at h1
              have h2 : s.nextId + 1 ≤ c.id := h1
              omega
          rw [descWrite_append, hd1, hd2]
          have hassoc : s.events ++ createdEvt s b :: createsU bs (stepU s b).2 =
              (stepU s b).2.events ++ createsU bs (stepU s b).2 := by
            rw [stepU_create_state h]
            show _ = (s.events ++ [createdEvt s b]) ++ _
            rw [List.append_assoc, List.singleton_append]
          rw [hassoc]

/-!  ### C1 machinery, upsert side: validity and clash lemmas  -/

theorem lowEq_symm (a b : String) : lowEq a b = lowEq b a := by
  unfold lowEq
  exact decide_eq_decide.mpr eq_comm

theorem valid_tail {b : Blk} {bs : List Blk}
    (h : validBlocks (b :: bs) = true) : validBlocks bs = true := by
  unfold validBlocks at h ⊢
  rw [show pairwiseNoClash (b :: bs) =
    ((bs.all fun x => !blkClash b x) && pairwiseNoClash bs) from rfl] at h
  rw [List.all_cons] at h
  simp only [Bool.and_eq_true] at h
  rw [Bool.and_eq_true]
  exact ⟨h.1.2, h.2.2⟩

theorem valid_head_lt {b : Blk} {bs : List Blk}
    (h : validBlocks (b :: bs) = true) : b.bstart < b.bend := by
  unfold validBlocks at h
  rw [List.all_cons] at h
  simp only [Bool.and_eq_true] at h
  simpa using h.1.1.2

theorem valid_noclash {b : Blk} {bs : List Blk}
    (h : validBlocks (b :: bs) = true) :
    ∀ b' ∈ bs, blkClash b b' = false := by
  unfold validBlocks pairwiseNoClash at h
  simp only [Bool.and_eq_true] at h
  intro b' hb'
  have := List.all_eq_true.mp h.2.1 b' hb'
  simpa using this

/-- An event whose title and window come from a non-clashing block is
not a candidate for this block's window. -/
theorem isCand_of_noclash {b b' : Blk} {c : RemoteEvent}
    (hsum : c.summary = b'.summary) (hst : c.start = b'.bstart)
    (hen : c.end_ = b'.bend) (hcl : blkClash b b' = false) :
    isCand b.summary b.bstart b.bend c = false := by
  unfold blkClash at hcl
  unfold isCand overlapsWin
  rw [hsum, hst, hen, lowEq_symm]
  cases h1 : lowEq b.summary b'.summary <;>
    cases h2 : decide (b'.bstart < b.bend) <;>
      cases h3 : decide (b.bstart < b'.bend) <;>
        simp_all

theorem descWrite_keyResp (l : List RemoteEvent) (i : Nat) (d : String) :
    List.Forall₂ keyEq l (descWrite l i d) := by
  apply forall₂_keyEq_map
  intro x _
  by_cases hc : x.id = i
  · rw [if_pos hc]
    exact ⟨rfl, rfl, rfl, rfl⟩
  · rw [if_neg hc]
    exact keyEq_refl x

theorem writesU_cons (b : Blk) (bs : List Blk) (s : CalState) :
    writesU (b :: bs) s = (tgtU s b, b.desc) :: writesU bs (stepU s b).2 := by
  show List.zip (tgtU s b :: tgtsU bs (stepU s b).2)
    (b.desc :: bs.map (fun b => b.desc)) = _
  rw [List.zip_cons_cons]
  rfl

/-!  ### C1, upsert side: the second-run theorem  -/

/-- Against any state whose events are key-equal to the final state of a
run from `s` (same ids, titles, windows — descriptions free), the upsert
reconciler finds a match for every block, issues only `Updated` actions
targeting exactly the events the first run wrote, re-applies the same
description writes, and creates nothing. -/
theorem runU_second : ∀ (bs : List Blk) (s : CalState), wfState s = true →
    validBlocks bs = true →
    ∀ u : CalState, List.Forall₂ keyEq u.events (runU bs s).2.events →
      (runU bs u).1 =
        List.zipWith (fun b i => Act.updated i b.desc) bs (tgtsU bs s) ∧
      (runU bs u).2.events = applyWseq u.events (writesU bs s) ∧
      (runU bs u).2.nextId = u.nextId := by
  intro bs
  induction bs with
  | nil =>
      intro s _ _ u _
      exact ⟨rfl, rfl, rfl⟩
  | cons b bs ih =>
      intro s hwf hv u hu
      have hwf1 : wfState (stepU s b).2 = true := wf_stepU hwf b
      have hv1 : validBlocks bs = true := valid_tail hv
      have hndu : nodupIds u.events = true := by
        rw [nodupIds_congr (forall₂_keyEq_map_id hu)]
        exact wf_nodup (wf_runU bs (stepU s b).2 hwf1)
      obtain ⟨cr, hshape, hprops⟩ := runU_shape bs (stepU s b).2 hwf1
      have hcrnil : cr.filter (isCand b.summary b.bstart b.bend) = [] := by
        rw [List.filter_eq_nil_iff]
        intro c hc
        obtain ⟨_, b', hb', hsum, hst, hen⟩ := hprops c hc
        rw [isCand_of_noclash hsum hst hen (valid_noclash hv b' hb')]
        simp
      have hfind : ∃ e', findEvt u b.summary b.bstart b.bend = some e' ∧
          e'.id = tgtU s b := by
        cases h : findEvt s b.summary b.bstart b.bend with
        | some e =>
            have hs1 : List.Forall₂ keyEq (stepU s b).2.events s.events := by
              rw [stepU_update_state h]
              exact forall₂_keyEq_symm
                (updateEvent_keyResp (wf_nodup hwf) (findEvt_sound h).1)
            have hue : List.Forall₂ keyEq u.events (s.events ++ cr) :=
              forall₂_keyEq_trans hu (forall₂_keyEq_trans hshape
                (forall₂_keyEq_append hs1 (forall₂_keyEq_refl cr)))
            have hcands : List.Forall₂ keyEq
                (u.events.filter (isCand b.summary b.bstart b.bend))
                (s.events.filter (isCand b.summary b.bstart b.bend)) := by
              have hflt := filter_cand_keyResp hue b.summary b.bstart b.bend
              rw [List.filter_append, hcrnil, List.append_nil] at hflt
              exact hflt
            have hrel := head?_keyResp (sortByStart_keyResp hcands)
            rw [← findEvt_eq, ← findEvt_eq] at hrel
            rcases hrel with ⟨h1, h2⟩ | ⟨a, c, h1, h2, hk⟩
            · rw [h] at h2
              cases h2
            · rw [h] at h2
              cases h2
              refine ⟨a, h1, ?_⟩
              rw [hk.1]
              unfold tgtU
              rw [h]
        | none =>
            have hsnil : s.events.filter (isCand b.summary b.bstart b.bend) = [] := by
              rw [List.filter_eq_nil_iff]
              intro c hc
              rw [findEvt_none_iff.mp h c hc]
              simp
            have hue : List.Forall₂ keyEq u.events
                (s.events ++ createdEvt s b :: cr) := by
              refine forall₂_keyEq_trans hu (forall₂_keyEq_trans hshape ?_)
              rw [show (stepU s b).2.events = s.events ++ [createdEvt s b] by
                rw [stepU_create_state h]]
              rw [List.append_assoc, List.singleton_append]
              exact forall₂_keyEq_refl _
            have hcand1 : isCand b.summary b.bstart b.bend (createdEvt s b) = true := by
              have hlt := valid_head_lt hv
              simp [isCand, overlapsWin, createdEvt, lowEq_refl, hlt]
            have hcands : List.Forall₂ keyEq
                (u.events.filter (isCand b.summary b.bstart b.bend))
                [createdEvt s b] := by
              have hflt := filter_cand_keyResp hue b.summary b.bstart b.bend
              rw [List.filter_append, hsnil, List.nil_append,
                List.filter_cons_of_pos hcand1, hcrnil] at hflt
              exact hflt
            have hrel := head?_keyResp (sortByStart_keyResp hcands)
            rw [← findEvt_eq] at hrel
            rcases hrel with ⟨h1, h2⟩ | ⟨a, c, h1, h2, hk⟩
            · rw [show sortByStart [createdEvt s b] = [createdEvt s b] from rfl] at h2
              cases h2
            · rw [show sortByStart [createdEvt s b] = [createdEvt s b] from rfl] at h2
              have hc : createdEvt s b = c := by simpa using h2
              subst hc
              refine ⟨a, h1, ?_⟩
              rw [hk.1]
              unfold tgtU
              rw [h]
              rfl
      obtain ⟨e', hface, hid⟩ := hfind
      have hstep1 : (stepU u b).1 = Act.updated e'.id b.desc := by
        rw [stepU_update_state hface]
      have hstepev : (stepU u b).2.events = descWrite u.events e'.id b.desc :=
        stepU_update_events hndu hface
      have hstepn : (stepU u b).2.nextId = u.nextId := by
        rw [stepU_update_state hface]
        rfl
      have hu' : List.Forall₂ keyEq (stepU u b).2.events
          (runU bs (stepU s b).2).2.events := by
        rw [hstepev]
        exact forall₂_keyEq_trans
          (forall₂_keyEq_symm (descWrite_keyResp u.events e'.id b.desc)) hu
      obtain ⟨ihr, ihe, ihn⟩ := ih (stepU s b).2 hwf1 hv1 (stepU u b).2 hu'
      refine ⟨?_, ?_, ?_⟩
      · show (stepU u b).1 :: (runU bs (stepU u b).2).1 = _
        rw [hstep1, hid, ihr]
        rw [show tgtsU (b :: bs) s = tgtU s b :: tgtsU bs (stepU s b).2 from rfl,
          List.zipWith_cons_cons]
      · show (runU bs (stepU u b).2).2.events = _
        rw [ihe, hstepev, writesU_cons]
        show applyWseq (descWrite u.events e'.id b.desc) (writesU bs (stepU s b).2) =
          applyWseq (descWrite u.events (tgtU s b) b.desc) (writesU bs (stepU s b).2)
        rw [hid]
      · show (runU bs (stepU u b).2).2.nextId = _
        rw [ihn, hstepn]

/-- Upsert re-run: the second run issues exactly one `Updated` per block
(no `Created`, no `Deleted`) writing the desired description to exactly
the event the first run wrote, and leaves the remote state unchanged. -/
theorem runU_rerun (bs : List Blk) (s0 : CalState)
    (hwf : wfState s0 = true) (hv : validBlocks bs = true) :
    (runU bs (runU bs s0).2).1 =
      List.zipWith (fun b i => Act.updated i b.desc) bs (tgtsU bs s0) ∧
    (runU bs (runU bs s0).2).2 = (runU bs s0).2 := by
  obtain ⟨hr, he, hn⟩ := runU_second bs s0 hwf hv (runU bs s0).2 (forall₂_keyEq_refl _)
  refine ⟨hr, ?_⟩
  have hev : (runU bs (runU bs s0).2).2.events = (runU bs s0).2.events := by
    rw [he, runU_desc bs s0 hwf, applyWseq_idem, ← runU_desc bs s0 hwf]
  calc (runU bs (runU bs s0).2).2
      = { events := (runU bs (runU bs s0).2).2.events
          nextId := (runU bs (runU bs s0).2).2.nextId } := rfl
    _ = { events := (runU bs s0).2.events, nextId := (runU bs s0).2.nextId } := by
        rw [hev, hn]
    _ = (runU bs s0).2 := rfl

/-!  ### C1 machinery, replace side  -/

/-- An event with its opaque id erased: the service-independent content
(title, window, description, extra fields). -/
def ckE (e : RemoteEvent) : RemoteEvent := { e with id := 0 }

/-- An event survives a slot list's purge passes iff it matches none of
the slots. -/
def slotKeeps (sls : List Slot) (e : RemoteEvent) : Bool :=
  sls.all (fun sl => !(isCand mktTitle sl.sstart sl.send e))

/-- Two slots address the same calendar window. -/
def sameWin (a b : Slot) : Bool :=
  decide (a.sstart = b.sstart) && decide (a.send = b.send)

/-- The content of the event a slot's create installs. -/
def survSlot (sl : Slot) : RemoteEvent :=
  { id := 0, summary := mktTitle, start := sl.sstart, end_ := sl.send
    description := sl.sdesc, extra := "" }

/-- The contents that survive a whole replace-mode run: for each slot,
its created event survives iff no later slot re-purges its window. -/
def survivorsE : List Slot → List RemoteEvent
  | [] => []
  | sl :: sls =>
      (if sls.all (fun sl' => !sameWin sl' sl) then [survSlot sl] else []) ++
        survivorsE sls

theorem nodupIds_filter {l : List RemoteEvent} (p : RemoteEvent → Bool)
    (h : nodupIds l = true) : nodupIds (l.filter p) = true := by
  induction l with
  | nil => simp [nodupIds]
  | cons e r ih =>
      rw [nodupIds, Bool.and_eq_true] at h
      cases hp : p e
      · rw [List.filter_cons_of_neg (by simp [hp])]
        exact ih h.2
      · rw [List.filter_cons_of_pos (by simp [hp])]
        rw [nodupIds, Bool.and_eq_true]
        refine ⟨?_, ih h.2⟩
        rw [List.all_eq_true]
        intro x hx
        exact List.all_eq_true.mp h.1 x (List.mem_filter.mp hx).1

theorem wf_stepR {s : CalState} (hwf : wfState s = true) (sl : Slot) :
    wfState (stepR s sl).2 = true := by
  rw [stepR_state (wf_nodup hwf)]
  unfold wfState
  rw [Bool.and_eq_true]
  constructor
  · apply nodupIds_append_fresh
    · intro x hx
      have hlt := wf_id_lt hwf x (List.mem_filter.mp hx).1
      show x.id ≠ s.nextId
      omega
    · exact nodupIds_filter _ (wf_nodup hwf)
  · rw [List.all_eq_true]
    intro x hx
    rcases List.mem_append.mp hx with hx' | hx'
    · have := wf_id_lt hwf x (List.mem_filter.mp hx').1
      simp
      omega
    · rw [List.mem_singleton] at hx'
      subst hx'
      simp

theorem wf_runR : ∀ (sls : List Slot) (s : CalState), wfState s = true →
    wfState (runR sls s).2 = true
  | [], _, hwf => hwf
  | sl :: sls, s, hwf => wf_runR sls (stepR s sl).2 (wf_stepR hwf sl)

/-- Window overlap between two equal-or-disjoint nonempty windows is
exactly window equality. -/
theorem overlap_iff_sameWin {a b : Slot}
    (_h1 : a.sstart < a.send) (h2 : b.sstart < b.send)
    (hed : (a.sstart = b.sstart ∧ a.send = b.send) ∨
      (a.send ≤ b.sstart ∨ b.send ≤ a.sstart)) :
    (a.sstart < b.send ∧ b.sstart < a.send) ↔
      (a.sstart = b.sstart ∧ a.send = b.send) := by
  omega

/-- Matching a slot's window against another slot's created content is
window equality (under equal-or-disjoint nonempty windows). -/
theorem cand_surv {a b : Slot}
    (h1 : a.sstart < a.send) (h2 : b.sstart < b.send)
    (hed : (b.sstart = a.sstart ∧ b.send = a.send) ∨
      (b.send ≤ a.sstart ∨ a.send ≤ b.sstart)) :
    isCand mktTitle a.sstart a.send (survSlot b) = sameWin b a := by
  unfold isCand overlapsWin survSlot sameWin
  rw [show ({ id := 0, summary := mktTitle, start := b.sstart, end_ := b.send, description := b.sdesc, extra := "" } : RemoteEvent).summary = mktTitle from rfl]
  rw [lowEq_refl, Bool.and_true]
  show (decide (b.sstart < a.send) && decide (a.sstart < b.send)) = _
  have hiff : (b.sstart < a.send ∧ a.sstart < b.send) ↔
      (b.sstart = a.sstart ∧ b.send = a.send) := by omega
  cases hb1 : decide (b.sstart < a.send) <;>
    cases hb2 : decide (a.sstart < b.send) <;>
      cases hb3 : decide (b.sstart = a.sstart) <;>
        cases hb4 : decide (b.send = a.send) <;>
          simp_all <;> omega

theorem sameWin_comm (a b : Slot) : sameWin a b = sameWin b a := by
  unfold sameWin
  congr 1
  · exact decide_eq_decide.mpr eq_comm
  · exact decide_eq_decide.mpr eq_comm

/-- The content event a replace step creates. -/
def mkMktEvt (s : CalState) (sl : Slot) : RemoteEvent :=
  { id := s.nextId, summary := mktTitle, start := sl.sstart, end_ := sl.send
    description := sl.sdesc, extra := "" }

theorem stepR_state' {s : CalState} (hnd : nodupIds s.events = true) (sl : Slot) :
    (stepR s sl).2.events =
      s.events.filter (fun e => !(isCand mktTitle sl.sstart sl.send e)) ++
        [mkMktEvt s sl] := by
  rw [stepR_state hnd]
  rfl

theorem map_ck_filter (p : RemoteEvent → Bool) (hp : ∀ e, p (ckE e) = p e) :
    ∀ l : List RemoteEvent, (l.filter p).map ckE = (l.map ckE).filter p := by
  intro l
  induction l with
  | nil => rfl
  | cons e r ih =>
      cases hpe : p e
      · rw [List.filter_cons_of_neg (by simp [hpe]), List.map_cons,
          List.filter_cons_of_neg (by simp [hp e, hpe]), ih]
      · rw [List.filter_cons_of_pos (by simp [hpe]), List.map_cons, List.map_cons,
          List.filter_cons_of_pos (by simp [hp e, hpe]), ih]

theorem slotKeeps_ckE (sls : List Slot) (e : RemoteEvent) :
    slotKeeps sls (ckE e) = slotKeeps sls e := rfl

theorem all_congr_mem {α : Type} {l : List α} {p q : α → Bool}
    (h : ∀ x ∈ l, p x = q x) : l.all p = l.all q := by
  induction l with
  | nil => rfl
  | cons x r ih =>
      rw [List.all_cons, List.all_cons, h x (List.mem_cons_self x r),
        ih (fun y hy => h y (List.mem_cons_of_mem x hy))]

/-- Content-level characterisation of a whole replace-mode run: the
untouched events are exactly those matching no slot, and each slot's
created event survives exactly when no later slot re-purges its window. -/
theorem runR_content : ∀ (sls : List Slot) (s : CalState), wfState s = true →
    (∀ a ∈ sls, ∀ b ∈ sls, (b.sstart = a.sstart ∧ b.send = a.send) ∨
      (b.send ≤ a.sstart ∨ a.send ≤ b.sstart)) →
    (∀ sl ∈ sls, sl.sstart < sl.send) →
    (runR sls s).2.events.map ckE =
      (s.events.filter (slotKeeps sls)).map ckE ++ survivorsE sls := by
  intro sls
  induction sls with
  | nil =>
      intro s _ _ _
      show s.events.map ckE = (s.events.filter (slotKeeps [])).map ckE ++ []
      rw [List.append_nil]
      congr 1
      exact (List.filter_true s.events).symm
  | cons sl sls ih =>
      intro s hwf hED hNE
      have hndup := wf_nodup hwf
      have hrun : (runR (sl :: sls) s).2 = (runR sls (stepR s sl).2).2 := rfl
      have hED1 : ∀ a ∈ sls, ∀ b ∈ sls, (b.sstart = a.sstart ∧ b.send = a.send) ∨
          (b.send ≤ a.sstart ∨ a.send ≤ b.sstart) :=
        fun a ha b hb => hED a (List.mem_cons_of_mem sl ha) b (List.mem_cons_of_mem sl hb)
      have hNE1 : ∀ x ∈ sls, x.sstart < x.send :=
        fun x hx => hNE x (List.mem_cons_of_mem sl hx)
      have hIH := ih (stepR s sl).2 (wf_stepR hwf sl) hED1 hNE1
      rw [hrun, hIH, stepR_state' hndup sl, List.filter_append]
      have hA : (s.events.filter (fun e => !(isCand mktTitle sl.sstart sl.send e))).filter
          (slotKeeps sls) = s.events.filter (slotKeeps (sl :: sls)) := by
        rw [List.filter_filter]
        apply List.filter_congr
        intro e _
        show (slotKeeps sls e && !(isCand mktTitle sl.sstart sl.send e)) = _
        rw [Bool.and_comm]
        rfl
      have hkeep : slotKeeps sls (mkMktEvt s sl) =
          sls.all (fun sl' => !sameWin sl' sl) := by
        unfold slotKeeps
        apply all_congr_mem
        intro sl' hsl'
        rw [show isCand mktTitle sl'.sstart sl'.send (mkMktEvt s sl) =
            isCand mktTitle sl'.sstart sl'.send (survSlot sl) from rfl]
        rw [cand_surv (hNE sl' (List.mem_cons_of_mem sl hsl'))
          (hNE sl (List.mem_cons_self sl sls))
          (hED sl' (List.mem_cons_of_mem sl hsl') sl (List.mem_cons_self sl sls)),
          sameWin_comm sl sl']
      rw [hA, List.map_append, List.append_assoc,
        show survivorsE (sl :: sls) =
          (if sls.all (fun sl' => !sameWin sl' sl) then [survSlot sl] else []) ++
            survivorsE sls from rfl]
      congr 1
      cases hcond : sls.all (fun sl' => !sameWin sl' sl) with
      | false =>
          rw [List.filter_cons_of_neg (by rw [hkeep, hcond]; simp),
            List.filter_nil, List.map_nil, if_neg (by simp [hcond])]
      | true =>
          rw [List.filter_cons_of_pos (by rw [hkeep, hcond]),
            List.filter_nil, if_pos (by simp [hcond])]
          rfl

theorem sameWin_refl (a : Slot) : sameWin a a = true := by
  unfold sameWin
  simp

theorem sameWin_iff {a b : Slot} :
    sameWin a b = true ↔ (a.sstart = b.sstart ∧ a.send = b.send) := by
  unfold sameWin
  simp

theorem all_false_exists {α : Type} {l : List α} {p : α → Bool}
    (h : l.all p = false) : ∃ x ∈ l, p x = false := by
  by_contra hcon
  push_neg at hcon
  have hall : l.all p = true := List.all_eq_true.mpr (fun x hx => by
    cases hpx : p x
    · exact absurd hpx (hcon x hx)
    · rfl)
  rw [hall] at h
  cases h

theorem survivorsE_mem : ∀ (sls : List Slot), ∀ e ∈ survivorsE sls,
    ∃ sl ∈ sls, e = survSlot sl := by
  intro sls
  induction sls with
  | nil => intro e he; cases he
  | cons sl sls ih =>
      intro e he
      unfold survivorsE at he
      rcases List.mem_append.mp he with h1 | h2
      · by_cases hc : sls.all (fun sl' => !sameWin sl' sl) = true
        · rw [if_pos hc, List.mem_singleton] at h1
          exact ⟨sl, List.mem_cons_self sl sls, h1⟩
        · rw [if_neg hc] at h1
          cases h1
      · obtain ⟨sl', hsl', he'⟩ := ih e h2
        exact ⟨sl', List.mem_cons_of_mem sl hsl', he'⟩

/-- Each slot's window keeps exactly one survivor across the run: the
last slot addressing that window contributes it. -/
theorem survivors_one : ∀ (sls : List Slot),
    (∀ a ∈ sls, ∀ b ∈ sls, (b.sstart = a.sstart ∧ b.send = a.send) ∨
      (b.send ≤ a.sstart ∨ a.send ≤ b.sstart)) →
    (∀ x ∈ sls, x.sstart < x.send) →
    ∀ sl ∈ sls,
      ((survivorsE sls).filter
        (fun e => isCand mktTitle sl.sstart sl.send e)).length = 1 := by
  intro sls
  induction sls with
  | nil => intro _ _ sl hsl; cases hsl
  | cons sl₀ sls ih =>
      intro hED hNE sl hsl
      have hED1 : ∀ a ∈ sls, ∀ b ∈ sls, (b.sstart = a.sstart ∧ b.send = a.send) ∨
          (b.send ≤ a.sstart ∨ a.send ≤ b.sstart) :=
        fun a ha b hb =>
          hED a (List.mem_cons_of_mem sl₀ ha) b (List.mem_cons_of_mem sl₀ hb)
      have hNE1 : ∀ x ∈ sls, x.sstart < x.send :=
        fun x hx => hNE x (List.mem_cons_of_mem sl₀ hx)
      have hcand0 : isCand mktTitle sl.sstart sl.send (survSlot sl₀) = sameWin sl₀ sl :=
        cand_surv (hNE sl hsl) (hNE sl₀ (List.mem_cons_self sl₀ sls))
          (hED sl hsl sl₀ (List.mem_cons_self sl₀ sls))
      rw [show survivorsE (sl₀ :: sls) =
        (if sls.all (fun sl' => !sameWin sl' sl₀) then [survSlot sl₀] else []) ++
          survivorsE sls from rfl, List.filter_append]
      by_cases hwin : sameWin sl₀ sl = true
      · cases hcond : sls.all (fun sl' => !sameWin sl' sl₀) with
        | true =>
            have htail : (survivorsE sls).filter
                (fun e => isCand mktTitle sl.sstart sl.send e) = [] := by
              rw [List.filter_eq_nil_iff]
              intro e he
              obtain ⟨sl'', hsl'', rfl⟩ := survivorsE_mem sls e he
              rw [cand_surv (hNE sl hsl) (hNE1 sl'' hsl'')
                (hED sl hsl sl'' (List.mem_cons_of_mem sl₀ hsl''))]
              intro hcon
              have h1 := sameWin_iff.mp hcon
              have h2 := sameWin_iff.mp hwin
              have h3 := List.all_eq_true.mp hcond sl'' hsl''
              have h4 : sameWin sl'' sl₀ = true := sameWin_iff.mpr ⟨by omega, by omega⟩
              rw [h4] at h3
              simp at h3
            rw [if_pos rfl, htail, List.append_nil,
              List.filter_cons_of_pos (by rw [hcand0]; exact hwin), List.filter_nil]
            rfl
        | false =>
            obtain ⟨sl', hsl', hps⟩ := all_false_exists hcond
            have hps' : sameWin sl' sl₀ = true := by
              cases hsw : sameWin sl' sl₀
              · rw [hsw] at hps; simp at hps
              · rfl
            rw [if_neg (by simp), List.filter_nil, List.nil_append]
            have h1 := sameWin_iff.mp hps'
            have h2 := sameWin_iff.mp hwin
            have hst : sl.sstart = sl'.sstart := by omega
            have hen : sl.send = sl'.send := by omega
            rw [hst, hen]
            exact ih hED1 hNE1 sl' hsl'
      · have hslmem : sl ∈ sls := by
          rcases List.mem_cons.mp hsl with rfl | h
          · exact absurd (sameWin_refl sl) hwin
          · exact h
        have hhead : (if sls.all (fun sl' => !sameWin sl' sl₀) then [survSlot sl₀]
            else []).filter (fun e => isCand mktTitle sl.sstart sl.send e) = [] := by
          by_cases hc : sls.all (fun sl' => !sameWin sl' sl₀) = true
          · rw [if_pos hc,
              List.filter_cons_of_neg (by rw [hcand0]; exact hwin), List.filter_nil]
          · rw [if_neg hc, List.filter_nil]
        rw [hhead, List.nil_append]
        exact ih hED1 hNE1 sl hslmem

/-- Replace-mode re-run: starting from the state a first run produced, a
second run preserves the calendar's content (same multiset-in-order of
titles, windows, descriptions — only service ids are refreshed), hence
its event count, and leaves exactly one matching event per slot window. -/
theorem runR_rerun_general (sls : List Slot) (u0 : CalState)
    (hwf : wfState u0 = true)
    (hED : ∀ a ∈ sls, ∀ b ∈ sls, (b.sstart = a.sstart ∧ b.send = a.send) ∨
      (b.send ≤ a.sstart ∨ a.send ≤ b.sstart))
    (hNE : ∀ x ∈ sls, x.sstart < x.send) :
    (∀ sl ∈ sls,
      ((runR sls (runR sls u0).2).2.events.filter
        (fun e => isCand mktTitle sl.sstart sl.send e)).length = 1) ∧
    (runR sls (runR sls u0).2).2.events.map ckE =
      (runR sls u0).2.events.map ckE := by
  have hwf1 := wf_runR sls u0 hwf
  have hchar1 := runR_content sls u0 hwf hED hNE
  have hchar2 := runR_content sls (runR sls u0).2 hwf1 hED hNE
  have hsurvkeep : (survivorsE sls).filter (slotKeeps sls) = [] := by
    rw [List.filter_eq_nil_iff]
    intro e he
    obtain ⟨sl', hsl', rfl⟩ := survivorsE_mem sls e he
    intro hcon
    have h1 := List.all_eq_true.mp hcon sl' hsl'
    rw [cand_surv (hNE sl' hsl') (hNE sl' hsl') (hED sl' hsl' sl' hsl'),
      sameWin_refl] at h1
    simp at h1
  have hcomm := map_ck_filter (slotKeeps sls) (slotKeeps_ckE sls)
  have hfilter1 : ((runR sls u0).2.events.filter (slotKeeps sls)).map ckE =
      (u0.events.filter (slotKeeps sls)).map ckE := by
    rw [hcomm, hchar1, List.filter_append, hsurvkeep, List.append_nil,
      ← hcomm, List.filter_filter]
    congr 1
    apply List.filter_congr
    intro e _
    rw [Bool.and_self]
  refine ⟨?_, by rw [hchar2, hfilter1, hchar1]⟩
  intro sl hsl
  have hcand_ck : ∀ e : RemoteEvent, isCand mktTitle sl.sstart sl.send (ckE e) =
      isCand mktTitle sl.sstart sl.send e := fun e => rfl
  have hlen : ((runR sls (runR sls u0).2).2.events.filter
      (fun e => isCand mktTitle sl.sstart sl.send e)).length =
      (((runR sls (runR sls u0).2).2.events.map ckE).filter
        (fun e => isCand mktTitle sl.sstart sl.send e)).length := by
    rw [← map_ck_filter _ hcand_ck, List.length_map]
  rw [hlen, hchar2, hfilter1, List.filter_append]
  have hempty : ((u0.events.filter (slotKeeps sls)).map ckE).filter
      (fun e => isCand mktTitle sl.sstart sl.send e) = [] := by
    rw [← map_ck_filter _ hcand_ck]
    have hinner : (u0.events.filter (slotKeeps sls)).filter
        (fun e => isCand mktTitle sl.sstart sl.send e) = [] := by
      rw [List.filter_eq_nil_iff]
      intro a ha
      have hk := (List.mem_filter.mp ha).2
      have hall := List.all_eq_true.mp hk sl hsl
      simp only [Bool.not_eq_true'] at hall
      simp [hall]
    rw [hinner, List.map_nil]
  rw [hempty, List.nil_append]
  exact survivors_one sls hED hNE sl hsl

/-- The marketing schedule's slot windows are pairwise equal or disjoint. -/
theorem schedMkt_ED (weeks : List Week) :
    ∀ a ∈ schedMkt weeks, ∀ b ∈ schedMkt weeks,
      (b.sstart = a.sstart ∧ b.send = a.send) ∨
        (b.send ≤ a.sstart ∨ a.send ≤ b.sstart) := by
  intro a ha b hb
  obtain ⟨d, had1, had2⟩ := schedMkt_window ha
  obtain ⟨d', hbd1, hbd2⟩ := schedMkt_window hb
  rw [had1, had2, hbd1, hbd2]
  omega

theorem schedMkt_NE (weeks : List Week) :
    ∀ x ∈ schedMkt weeks, x.sstart < x.send := by
  intro x hx
  obtain ⟨d, h1, h2⟩ := schedMkt_window hx
  omega

theorem mem_zipWith_acts {bs : List Blk} :
    ∀ {ids : List Nat} {a : Act},
      a ∈ List.zipWith (fun (b : Blk) (i : Nat) => Act.updated i b.desc) bs ids →
        ∃ i d, a = Act.updated i d := by
  induction bs with
  | nil => intro ids a ha; cases ha
  | cons b bs ih =>
      intro ids a ha
      cases ids with
      | nil => cases ha
      | cons i ids =>
          rw [List.zipWith_cons_cons] at ha
          rcases List.mem_cons.mp ha with rfl | ha'
          · exact ⟨i, b.desc, rfl⟩
          · exact ih ha'

/-- C1.  Re-run idempotence: for any valid schedule, running the upsert
reconciliation (`update_deep_work_jan_2025.py`'s `main`) twice against an
unchanged remote calendar produces on the second run zero `Created` and
zero `Deleted` actions — every action is an `Updated` writing the desired
(hence identical) description to exactly the event the first run wrote —
and leaves the remote state exactly as the first run left it; and for any
marketing table, a second replace-mode run (`update_marketing_q1.py`'s
`main`) leaves exactly one surviving RemoteEvent per Replace-mode slot,
with no net change to the RemoteEvent count or content (only the opaque
service ids are refreshed). -/
theorem C1_rerun_idempotence
    (days : List DayInfo) (s0 : CalState) (hwf : wfState s0 = true)
    (hv : validBlocks (schedBlocks days) = true)
    (weeks : List Week) (u0 : CalState) (hwfu : wfState u0 = true) :
    (runU (schedBlocks days) ((runU (schedBlocks days) s0).2)).1 =
      List.zipWith (fun b i => Act.updated i b.desc) (schedBlocks days)
        (tgtsU (schedBlocks days) s0) ∧
    (∀ a ∈ (runU (schedBlocks days) ((runU (schedBlocks days) s0).2)).1,
      ∃ i d, a = Act.updated i d) ∧
    (runU (schedBlocks days) ((runU (schedBlocks days) s0).2)).2 =
      (runU (schedBlocks days) s0).2 ∧
    (∀ sl ∈ schedMkt weeks,
      ((runR (schedMkt weeks) (runR (schedMkt weeks) u0).2).2.events.filter
        (fun e => isCand mktTitle sl.sstart sl.send e)).length = 1) ∧
    (runR (schedMkt weeks) (runR (schedMkt weeks) u0).2).2.events.map ckE =
      (runR (schedMkt weeks) u0).2.events.map ckE := by
  obtain ⟨h1, h2⟩ := runU_rerun (schedBlocks days) s0 hwf hv
  obtain ⟨h3, h4⟩ := runR_rerun_general (schedMkt weeks) u0 hwfu
    (schedMkt_ED weeks) (schedMkt_NE weeks)
  exact ⟨h1, fun a ha => mem_zipWith_acts (h1 ▸ ha), h2, h3, h4⟩

theorem C1_rerun_idempotence_witness :
    (runU (schedBlocks [sampleDay]) ((runU (schedBlocks [sampleDay]) emptyCal).2)).2 =
      (runU (schedBlocks [sampleDay]) emptyCal).2 ∧
    (runR (schedMkt [weekA]) (runR (schedMkt [weekA]) emptyCal).2).2.events.map ckE =
      (runR (schedMkt [weekA]) emptyCal).2.events.map ckE :=
  ⟨(C1_rerun_idempotence [sampleDay] emptyCal (by decide) (by decide)
      [weekA] emptyCal (by decide)).2.2.1,
   (C1_rerun_idempotence [sampleDay] emptyCal (by decide) (by decide)
      [weekA] emptyCal (by decide)).2.2.2.2⟩
